import Mathlib

/-!
Verification of the async-irc repository against its specification.

The Python sources are shallowly embedded: Python `str` values become
`List Char`, fallible code returns `Except PyErr`, dictionaries become
insertion-ordered association lists, and the asyncio plumbing is reduced
to the pure state it manipulates.
-/

namespace AsyncIrc

/-- Python exceptions that the embedded code can raise.
`valueError` models `ValueError` (raised by `MessageTag.unescape` on a
dangling escape), `keyError` models `KeyError` (raised by the
`TAG_VALUE_ESCAPES[...]` lookup on an unknown escape pair), and
`indexError` models `IndexError` (raised by `self[-1][0]` in
`ParamList.__str__` when the list or its last element is empty), and
`assertionError` models `AssertionError` (raised by
`assert match, "Prefix did not match prefix pattern"` in `Prefix.parse`
when `PREFIX_RE.fullmatch` fails). -/
inductive PyErr where
  | valueError : PyErr
  | keyError : PyErr
  | indexError : PyErr
  | assertionError : PyErr
deriving DecidableEq, Repr

/-- Python `text.partition(sep)` for a one-character separator, returning
the pair (before the first `sep`, after the first `sep`); when `sep` does
not occur the whole string is the first component and the second is empty,
exactly as Python returns `(text, "", "")`. -/
def pyPartition (sep : Char) : List Char → List Char × List Char
  | [] => ([], [])
  | c :: rest =>
    if c = sep then ([], rest)
    else
      let p := pyPartition sep rest
      (c :: p.1, p.2)

/-- Python `text.split(sep)` for a one-character separator: no collapsing
of empty fields, and `"".split(sep) == [""]`. -/
def pySplit (sep : Char) : List Char → List (List Char)
  | [] => [[]]
  | c :: rest =>
    if c = sep then [] :: pySplit sep rest
    else
      match pySplit sep rest with
      | [] => [[c]]
      | t :: ts => (c :: t) :: ts

/-- Python `sep.join(parts)` for a one-character separator. -/
def pyJoin (sep : Char) : List (List Char) → List Char
  | [] => []
  | [x] => x
  | x :: xs => x ++ sep :: pyJoin sep xs

/-- ASCII model of Python `str.upper` on a single character (IRC commands
are ASCII; `command.upper()` is only applied to them). -/
def pyUpperChar (c : Char) : Char :=
  if 97 ≤ c.toNat ∧ c.toNat ≤ 122 then Char.ofNat (c.toNat - 32) else c

/-- Model of Python `str.upper`. -/
def pyUpper (s : List Char) : List Char := s.map pyUpperChar

/-! ## src/asyncirc/irc.py -/

/-- `TAG_VALUE_ESCAPES`: the second character of each two-character escape
sequence, mapped to its literal
(`\s → ' '`, `\: → ';'`, `\r → CR`, `\n → LF`, `\\ → \`);
`none` models a `KeyError` on any other pair. -/
def escMap (c : Char) : Option Char :=
  if c = 's' then some ' '
  else if c = ':' then some ';'
  else if c = 'r' then some '\r'
  else if c = 'n' then some '\n'
  else if c = '\\' then some '\\'
  else none

/-- `TAG_VALUE_UNESCAPES` applied to one character: the escaped spelling
of a reserved character, or the character itself. -/
def escapeChar (c : Char) : List Char :=
  if c = ' ' then ['\\', 's']
  else if c = ';' then ['\\', ':']
  else if c = '\r' then ['\\', 'r']
  else if c = '\n' then ['\\', 'n']
  else if c = '\\' then ['\\', '\\']
  else [c]

/-- `MessageTag.unescape`: scan left to right; a backslash consumes the
following character and substitutes the unescaped pair; a backslash as the
final character raises `ValueError`; an unknown pair raises `KeyError`
(the Python loop over indices with its `found` skip-flag is exactly this
recursion). -/
def unescape : List Char → Except PyErr (List Char)
  | [] => .ok []
  | c :: rest =>
    if c = '\\' then
      match rest with
      | [] => .error .valueError
      | e :: rest2 =>
        match escMap e with
        | some r => (unescape rest2).map (fun v => r :: v)
        | none => .error .keyError
    else (unescape rest).map (fun v => c :: v)

/-- `MessageTag.escape`: replace each reserved character by its escaped
spelling. -/
def escape (s : List Char) : List Char := s.flatMap escapeChar

/-- `class MessageTag`: a tag name with an optional value (`None` ↦
`none`). -/
structure MessageTag where
  name : List Char
  value : Option (List Char)
deriving DecidableEq, Repr

/-- `MessageTag.__str__`: `name=escape(value)` when the value is truthy
(non-`None` and nonempty), otherwise just the name. -/
def messageTagStr (t : MessageTag) : List Char :=
  match t.value with
  | some v => if v = [] then t.name else t.name ++ '=' :: escape v
  | none => t.name

/-- `MessageTag.parse`: split on the first `=`; a nonempty right side is
unescaped; an empty unescaped value is stored as `None` (`value or None`). -/
def messageTagParse (text : List Char) : Except PyErr MessageTag :=
  let p := pyPartition '=' text
  if p.2 = [] then .ok ⟨p.1, none⟩
  else (unescape p.2).map (fun v => ⟨p.1, if v = [] then none else some v⟩)

/-- `class TagList`: an `OrderedDict` from tag name to tag, kept as an
insertion-ordered association list. -/
abbrev TagList := List (List Char × MessageTag)

/-- Python `dict` insertion: an existing key keeps its position and gets
the new value; a new key is appended at the end. -/
def dictSet {α : Type} (d : List (List Char × α)) (k : List Char) (v : α) :
    List (List Char × α) :=
  match d with
  | [] => [(k, v)]
  | e :: rest => if e.1 = k then (k, v) :: rest else e :: dictSet rest k v

/-- Python `dict` lookup. -/
def dictGet {α : Type} (d : List (List Char × α)) (k : List Char) : Option α :=
  match d with
  | [] => none
  | e :: rest => if e.1 = k then some e.2 else dictGet rest k

/-- `TagList.__init__`: build the ordered dict from `(tag.name, tag)`
pairs. -/
def tagListOfList (tags : List MessageTag) : TagList :=
  tags.foldl (fun d t => dictSet d t.name t) []

/-- `TagList.__str__`: `'@' + ';'.join(map(str, self.values()))`. -/
def tagListStr (tags : TagList) : List Char :=
  '@' :: pyJoin ';' (tags.map (fun e => messageTagStr e.2))

/-- `TagList.parse`: split on `;`, drop empty chunks, parse each tag and
collect them into the ordered dict. -/
def tagListParse (text : List Char) : Except PyErr TagList :=
  (((pySplit ';' text).filter (fun t => t ≠ [])).mapM messageTagParse).map
    tagListOfList

/-- `class Prefix` (renamed `Pfx`: `prefix` is a Lean keyword): nick with
optional user and host. -/
structure Pfx where
  nick : List Char
  user : Option (List Char)
  host : Option (List Char)
deriving DecidableEq, Repr

/-- `Prefix.mask`: `nick[!user][@host]`. -/
def Pfx.mask (p : Pfx) : List Char :=
  p.nick ++
    (match p.user with | some u => '!' :: u | none => []) ++
    (match p.host with | some h => '@' :: h | none => [])

/-- `Prefix.__str__`: `':' + mask`. -/
def pfxStr (p : Pfx) : List Char := ':' :: p.mask

/-- Scan helper for the `PREFIX_RE` lazy match: split `s` at the first
index whose character is in `special` and which has at least one character
after it; the first component is everything before that index. -/
def scanSplit (special : List Char) : List Char → List Char × List Char
  | [] => ([], [])
  | c :: rest =>
    if c ∈ special ∧ rest ≠ [] then ([], c :: rest)
    else
      let p := scanSplit special rest
      (c :: p.1, p.2)

/-- The result of a successful `PREFIX_RE.fullmatch` on a nonempty
newline-free string (without the optional leading `:`), unfolded into its
deterministic outcome: the lazy quantifiers make `nick` the shortest
nonempty prefix whose remainder is empty or starts a `!user`/`@host` tail
with a nonempty payload, `user` the shortest nonempty run before a usable
`@host` tail, and `host` the rest. A `!` or `@` with nothing after it is
absorbed into the preceding group, exactly as the backtracking engine
does. On a string containing `'\n'` the fullmatch fails (see `pfxParse`),
so this scan only describes the newline-free case. -/
def pfxCore : List Char → Pfx
  | [] => ⟨[], none, none⟩
  | c :: cs =>
    let p := scanSplit ['!', '@'] cs
    let nick := c :: p.1
    match p.2 with
    | [] => ⟨nick, none, none⟩
    | r :: rs =>
      if r = '!' then
        match rs with
        | [] => ⟨nick, none, none⟩
        | u0 :: us =>
          let q := scanSplit ['@'] us
          match q.2 with
          | [] => ⟨nick, some (u0 :: q.1), none⟩
          | _ :: hs => ⟨nick, some (u0 :: q.1), some hs⟩
      else ⟨nick, none, some rs⟩

/-- `Prefix.parse`: empty text gives the empty prefix; otherwise the
regex `:?(?P<nick>.+?)(?:!(?P<user>.+?))?(?:@(?P<host>.+?))?` is
fullmatched against the text and `assert match` raises `AssertionError`
when the match fails. Every consuming atom of the pattern other than the
literals `:`, `!`, `@` is `.`, which never matches `'\n'`, and the
literals do not match `'\n'` either, so the fullmatch of a nonempty text
fails exactly when the text contains a newline; otherwise it succeeds
with the `pfxCore` outcome (the optional `:` is consumed only when a
nonempty nick can still be matched afterwards). -/
def pfxParse (text : List Char) : Except PyErr Pfx :=
  match text with
  | [] => .ok ⟨[], none, none⟩
  | c :: cs =>
    if '\n' ∈ c :: cs then .error .assertionError
    else if c = ':' ∧ cs ≠ [] then .ok (pfxCore cs)
    else .ok (pfxCore (c :: cs))

/-- `class ParamList`: the parameter list together with its
trailing-parameter flag. -/
structure ParamList where
  params : List (List Char)
  hasTrail : Bool
deriving DecidableEq, Repr

/-- `ParamList.__init__`: `has_trail = has_trail or (self and ' ' in
self[-1])` (an empty list is falsy, so the flag is left alone). -/
def mkParamList (seq : List (List Char)) (hasTrail : Bool) : ParamList :=
  ⟨seq, hasTrail || (match seq.getLast? with
    | some l => decide (' ' ∈ l)
    | none => false)⟩

/-- The `while text:` loop of `ParamList.parse`, fused with
`text.partition(' ')` into a one-pass scan: `cur = some tok` while a
token is being accumulated. At a token boundary a leading `:` makes the
whole rest the trailing parameter, a space is skipped (empty args are
dropped), any other character starts a token; inside a token a space
flushes it. -/
def paramsGo (cur : Option (List Char)) : List Char → List (List Char) × Bool
  | [] => (match cur with | none => [] | some t => [t], false)
  | c :: rest =>
    match cur with
    | none =>
      if c = ':' then ([rest], true)
      else if c = ' ' then paramsGo none rest
      else paramsGo (some [c]) rest
    | some t =>
      if c = ' ' then
        let p := paramsGo none rest
        (t :: p.1, p.2)
      else paramsGo (some (t ++ [c])) rest

/-- `ParamList.parse`. -/
def paramListParse (text : List Char) : ParamList :=
  let p := paramsGo none text
  mkParamList p.1 p.2

/-- `ParamList.__str__`: when the trailing flag is set and the last
parameter does not already start with `:`, the last parameter is
re-prefixed with `:`; `self[-1][0]` raises `IndexError` when the list or
its last element is empty. -/
def paramListStr (pl : ParamList) : Except PyErr (List Char) :=
  if pl.hasTrail then
    match pl.params.getLast? with
    | none => .error .indexError
    | some l =>
      match l with
      | [] => .error .indexError
      | c :: _ =>
        if c ≠ ':' then .ok (pyJoin ' ' (pl.params.dropLast ++ [':' :: l]))
        else .ok (pyJoin ' ' pl.params)
  else .ok (pyJoin ' ' pl.params)

/-- `class Message`. -/
structure Message where
  tags : TagList
  pfx : Pfx
  command : List Char
  parameters : ParamList
deriving DecidableEq, Repr

/-- The first stage of `Message.parse`: consume the tag block when the
text starts with `@`. -/
def msgSplitTags (text : List Char) : List Char × List Char :=
  if text.head? = some '@' then pyPartition ' ' text else ([], text)

/-- The second stage of `Message.parse`: consume the prefix block when
the remaining text starts with `:`. -/
def msgSplitPfx (text : List Char) : List Char × List Char :=
  if text.head? = some ':' then pyPartition ' ' text else ([], text)

/-- `Message.parse`: tag block, prefix block, upper-cased command, then
parameters. `TagList.parse` runs before `Prefix.parse` in the source, so
a tag error preempts the prefix assertion error. -/
def messageParse (text : List Char) : Except PyErr Message :=
  let s1 := msgSplitTags text
  let s2 := msgSplitPfx s1.2
  let s3 := pyPartition ' ' s2.2
  match tagListParse (s1.1.drop 1) with
  | .error e => .error e
  | .ok tl =>
    match pfxParse (s2.1.drop 1) with
    | .error e => .error e
    | .ok p => .ok ⟨tl, p, pyUpper s3.1, paramListParse s3.2⟩

/-- `Message.__str__`: space-join the stringified truthy parts (an empty
tag dict, a prefix with an empty nick, an empty command and an empty
parameter list are all falsy and dropped before stringification). -/
def messageStr (m : Message) : Except PyErr (List Char) :=
  let front :=
    (if m.tags = [] then [] else [tagListStr m.tags]) ++
    (if m.pfx.nick = [] then [] else [pfxStr m.pfx]) ++
    (if m.command = [] then [] else [m.command])
  if m.parameters.params = [] then .ok (pyJoin ' ' front)
  else (paramListStr m.parameters).map (fun ps => pyJoin ' ' (front ++ [ps]))

/-- `class Cap`: a capability name with optional value (`value or None`). -/
structure Cap where
  name : List Char
  value : Option (List Char)
deriving DecidableEq, Repr

/-- `Cap.parse`: split on the first `=`; an empty value is `None`. -/
def capParse (text : List Char) : Cap :=
  let p := pyPartition '=' text
  ⟨p.1, if p.2 = [] then none else some p.2⟩

/-- `CapList.parse`: split on spaces, each token parsed independently. -/
def capListParse (text : List Char) : List Cap :=
  (pySplit ' ' text).map capParse

/-- A parameter token as produced by `ParamList.parse` in every position
except a trailing last: nonempty, space-free, and not starting with the
trail sentinel `:`. -/
def goodTok (t : List Char) : Prop :=
  t ≠ [] ∧ ' ' ∉ t ∧ t.head? ≠ some ':'

/-- Shape invariant of a tag-dict entry produced by `TagList.parse`. -/
def TagEntryWF (e : List Char × MessageTag) : Prop :=
  e.1 = e.2.name ∧ '=' ∉ e.2.name ∧ ';' ∉ e.2.name ∧ ' ' ∉ e.2.name ∧
    e.2.value ≠ some []

/-- Shape invariant of every `Message` produced by `Message.parse`. -/
def MessageWF (m : Message) : Prop :=
  (∀ e ∈ m.tags, TagEntryWF e) ∧
  (m.tags.map Prod.fst).Nodup ∧
  (m.pfx = ⟨[], none, none⟩ ∨
    ∃ s, s ≠ [] ∧ ' ' ∉ s ∧ '\n' ∉ s ∧ m.pfx = pfxCore s) ∧
  ' ' ∉ m.command ∧
  pyUpper m.command = m.command ∧
  (m.parameters.hasTrail = true →
    ∃ pre last, m.parameters.params = pre ++ [last] ∧ ∀ t ∈ pre, goodTok t) ∧
  (m.parameters.hasTrail = false →
    ∀ t ∈ m.parameters.params, goodTok t)

/-- The side conditions under which serialize-then-reparse restores a
parsed message exactly.  Each conjunct is forced by a concrete
counterexample (see the C1 counterexample theorem): an empty-named
valueless tag serializes to an empty token that vanishes on reparse; a
message with parameters but no command promotes its first parameter to
the command; a command starting with `@` (with no tag block and no
prefix in front) or with `:` (with no prefix in front) is re-parsed as a
tag block or prefix; a trailing parameter that is empty makes `__str__`
raise, and one starting with `:` loses its trail sentinel; a nick
starting with `:` (unless the whole mask is just `":"`) loses one colon
per round-trip to the regex's optional leading `:?`. -/
def RoundTripSafe (m : Message) : Prop :=
  (∀ e ∈ m.tags, ¬(e.2.name = [] ∧ e.2.value = none)) ∧
  (m.parameters.params ≠ [] → m.command ≠ []) ∧
  ((m.tags = [] ∧ m.pfx.nick = []) → m.command.head? ≠ some '@') ∧
  (m.pfx.nick = [] → m.command.head? ≠ some ':') ∧
  (m.parameters.hasTrail = true →
    m.parameters.params.getLast?.getD [] ≠ [] ∧
    (m.parameters.params.getLast?.getD []).head? ≠ some ':') ∧
  (m.pfx.nick.head? = some ':' → m.pfx.mask = [':'])

/-- The C1 claim evaluated at one wire string: parse it, serialize the
result and re-parse; `true` when the round-trip yields the same message
field-for-field (vacuously `true` when the wire does not parse). -/
def reparses (w : List Char) : Bool :=
  match messageParse w with
  | .error _ => true
  | .ok m =>
    match messageStr m with
    | .error _ => false
    | .ok w2 =>
      match messageParse w2 with
      | .error _ => false
      | .ok m2 => decide (m2 = m)

/-! ## src/asyncirc/util/backoff.py -/

/-- `class AsyncDelayer.__init__`: base, `_max = 10`, `_exp = 0` (the
`integral` flag only selects which random function samples the interval
and is irrelevant to the interval itself). -/
structure AsyncDelayer where
  base : Nat
  maxExp : Nat
  exp : Nat
deriving DecidableEq, Repr

/-- `AsyncDelayer(base)`. -/
def mkAsyncDelayer (base : Nat) : AsyncDelayer := ⟨base, 10, 0⟩

/-- The state update of `__aenter__`: `self._exp = min(self._exp + 1,
self._max)`. -/
def AsyncDelayer.aenter (d : AsyncDelayer) : AsyncDelayer :=
  { d with exp := min (d.exp + 1) d.maxExp }

/-- The upper end of the sampling interval used by `__aenter__` after the
counter update: `self._base * (2 ** self._exp)` (`randfunc(0, bound)`
samples `[0, bound]`). -/
def AsyncDelayer.bound (d : AsyncDelayer) : Nat := d.base * 2 ^ d.exp

/-- The delayer state after `n` uses (n entries of the context manager). -/
def delayerAfter (base n : Nat) : AsyncDelayer :=
  Nat.rec (mkAsyncDelayer base) (fun _ d => d.aenter) n

/-- The upper bound of the wait sampled on the nth use (n = 1, 2, ...). -/
def nthBound (base n : Nat) : Nat := (delayerAfter base n).bound

/-! ## src/asyncirc/protocol.py -/

/-- `class SASLMechanism(IntEnum)`. -/
inductive SASLMechanism where
  | NONE : SASLMechanism
  | PLAIN : SASLMechanism
  | EXTERNAL : SASLMechanism
deriving DecidableEq, Repr

/-- The configuration state produced by `IrcProtocol.__init__` that the
SASL check concerns. -/
structure IrcProtocolConfig where
  saslAuth : Option (List Char × List Char)
  saslMech : SASLMechanism
deriving DecidableEq, Repr

/-- `IrcProtocol.__init__` reduced to its fallible configuration logic:
`self.sasl_mech = SASLMechanism(sasl_mech or SASLMechanism.NONE)` (every
enum member is truthy, so the default only applies to `None`), then
`if self.sasl_mech == SASLMechanism.PLAIN and self.sasl_auth is None:
raise ValueError(...)`.  All other construction steps (attribute
assignment, handler registration, future/task creation) are infallible. -/
def ircProtocolInit (saslAuth : Option (List Char × List Char))
    (saslMech : Option SASLMechanism) : Except PyErr IrcProtocolConfig :=
  let mech := saslMech.getD .NONE
  if mech = .PLAIN ∧ saslAuth = none then .error .valueError
  else .ok ⟨saslAuth, mech⟩

/-- `ConnectedServer.caps`: `dict[str, tuple[Cap, bool | None]]`; the
`bool | None` is the tri-state (None = Pending, True = Enabled, False =
Disabled). -/
abbrev CapsTable := List (List Char × (Cap × Option Bool))

/-- The capability list computed by `_internal_cap_handler`:
`CapList.parse(message.parameters[-1])` when the message has more than
two parameters, else empty. -/
def capMsgList (params : List (List Char)) : List Cap :=
  if 2 < params.length then capListParse (params.getLast?.getD []) else []

/-- `_handle_cap_ls` (together with the caplist computation of
`_internal_cap_handler`): mark every offered capability that has a
registered capability-hook as `(cap, None)`; when `message.parameters[2]`
(an `IndexError`, modelled as `none`, if absent) is not `"*"`, send one
`CAP REQ :<name>` per entry of the caps table, and `CAP END` when the
table is empty.  The returned list is the lines passed to `conn.send`,
in order. -/
def capLsStep (capHandlers : List (List Char)) (params : List (List Char))
    (caps : CapsTable) : Option (CapsTable × List (List Char)) :=
  let caplist := capMsgList params
  let caps2 := caplist.foldl
    (fun t cap => if cap.name ∈ capHandlers then dictSet t cap.name (cap, none)
      else t) caps
  match params.get? 2 with
  | none => none
  | some p2 =>
    if p2 ≠ ['*'] then
      some (caps2, caps2.map (fun e => ('C' :: 'A' :: 'P' :: ' ' :: 'R' ::
        'E' :: 'Q' :: ' ' :: ':' :: []) ++ e.1) ++
        (if caps2 = [] then [['C', 'A', 'P', ' ', 'E', 'N', 'D']] else []))
    else some (caps2, [])

/-- `_handle_cap_reply` (with the caplist computation of
`_internal_cap_handler`): `enabled = message.parameters[1] == "ACK"`; for
each listed capability, look up its current `Cap` object (`KeyError`,
modelled as `none`, when it is not tracked) and store `(current,
enabled)`; finally send `CAP END` iff every tracked capability has a
decided (non-`None`) state.  The enabled-capability handlers awaited on
ACK mutate no state modelled here and their own sends are out of scope. -/
def capReplyStep (params : List (List Char)) (caps : CapsTable) :
    Option (CapsTable × List (List Char)) :=
  match params.get? 1 with
  | none => none
  | some sub =>
    let enabled := sub = ['A', 'C', 'K']
    let caplist := capMsgList params
    match caplist.foldlM (fun t cap =>
        match dictGet t cap.name with
        | some cur => some (dictSet t cap.name (cur.1, some enabled))
        | none => none) caps with
    | none => none
    | some caps2 =>
      some (caps2,
        if caps2.all (fun e => e.2.2.isSome) then
          [['C', 'A', 'P', ' ', 'E', 'N', 'D']]
        else [])

/-- `IrcProtocol.handlers`: `dict[int, tuple[str, handler]]`; the handler
itself is kept abstract. -/
abbrev Handlers (α : Type) := List (Nat × (List Char × α))

/-- `IrcProtocol.register`: draw an unused random id and insert the
`(cmd, handler)` pair; the rejection loop is modelled by passing the
drawn id explicitly (the caller guarantees freshness, as the loop does),
and inserting a fresh key into a `dict` appends it. -/
def register {α : Type} (table : Handlers α) (hookId : Nat) (cmd : List Char)
    (handler : α) : Handlers α :=
  table ++ [(hookId, (cmd, handler))]

/-- `IrcProtocol.unregister`: `del self.handlers[hook_id]`. -/
def unregister {α : Type} (table : Handlers α) (hookId : Nat) : Handlers α :=
  table.filter (fun e => e.1 ≠ hookId)

/-- `IrcProtocol.wait_for`: with no commands return `None` at once;
otherwise register a one-shot hook per command (`hooks = [self.register
(cmd, _wait) for cmd in cmds]`, the drawn ids given by `ids`), await the
future (`outcome` is the awaited result: the matching message, or `None`
after `asyncio.TimeoutError`), and in the `finally` block unregister every
hook.  Returns (result, final handler table, ids that were registered). -/
def waitFor {α : Type} (table : Handlers α) (cmds : List (List Char))
    (ids : List Nat) (outcome : Option Message) (waiter : α) :
    Option Message × Handlers α × List Nat :=
  if cmds = [] then (none, table, [])
  else
    let t1 := (cmds.zip ids).foldl
      (fun t p => register t p.2 p.1 waiter) table
    let t2 := ids.foldl (fun t i => unregister t i) t1
    (outcome, t2, ids)

/-! ## Lemmas about the Python string helpers -/

theorem pyPartition_eq_of_not_mem {sep : Char} {s : List Char} (h : sep ∉ s) :
    pyPartition sep s = (s, []) := by
  induction s with
  | nil => rfl
  | cons c rest ih =>
    have hc : c ≠ sep := fun hc => h (hc ▸ List.mem_cons_self c rest)
    have hr : sep ∉ rest := fun hr => h (List.mem_cons_of_mem c hr)
    simp [pyPartition, hc, ih hr]

theorem pyPartition_append {sep : Char} {t r : List Char} (h : sep ∉ t) :
    pyPartition sep (t ++ sep :: r) = (t, r) := by
  induction t with
  | nil => simp [pyPartition]
  | cons c rest ih =>
    have hc : c ≠ sep := fun hc => h (hc ▸ List.mem_cons_self c rest)
    have hr : sep ∉ rest := fun hr => h (List.mem_cons_of_mem c hr)
    simp [pyPartition, hc, ih hr]

theorem pyPartition_fst_not_mem (sep : Char) (s : List Char) :
    sep ∉ (pyPartition sep s).1 := by
  induction s with
  | nil => simp [pyPartition]
  | cons c rest ih =>
    by_cases hc : c = sep
    · simp [pyPartition, hc]
    · simp only [pyPartition, if_neg hc]
      intro h
      rcases List.mem_cons.mp h with h | h
      · exact hc h.symm
      · exact ih h

theorem pyPartition_snd_sublist (sep : Char) (s : List Char) :
    ∀ c ∈ (pyPartition sep s).2, c ∈ s := by
  induction s with
  | nil => simp [pyPartition]
  | cons c rest ih =>
    by_cases hc : c = sep
    · simp only [pyPartition, if_pos hc]
      exact fun d hd => List.mem_cons_of_mem c hd
    · simp only [pyPartition, if_neg hc]
      exact fun d hd => List.mem_cons_of_mem c (ih d hd)

theorem pyPartition_fst_sublist (sep : Char) (s : List Char) :
    ∀ c ∈ (pyPartition sep s).1, c ∈ s := by
  induction s with
  | nil => simp [pyPartition]
  | cons c rest ih =>
    by_cases hc : c = sep
    · simp [pyPartition, hc]
    · simp only [pyPartition, if_neg hc]
      intro d hd
      rcases List.mem_cons.mp hd with h | h
      · exact h ▸ List.mem_cons_self c rest
      · exact List.mem_cons_of_mem c (ih d h)

theorem pySplit_not_mem (sep : Char) (s : List Char) :
    ∀ t ∈ pySplit sep s, sep ∉ t := by
  induction s with
  | nil =>
    intro t ht
    simp only [pySplit, List.mem_singleton] at ht
    simp [ht]
  | cons c rest ih =>
    intro t ht
    by_cases hc : c = sep
    · simp only [pySplit, if_pos hc, List.mem_cons] at ht
      rcases ht with h | h
      · simp [h]
      · exact ih t h
    · simp only [pySplit, if_neg hc] at ht
      rcases hsplit : pySplit sep rest with _ | ⟨u, us⟩
      · rw [hsplit] at ht
        simp only [List.mem_singleton] at ht
        subst ht
        intro hmem
        rcases List.mem_singleton.mp hmem with h
        exact hc h.symm
      · rw [hsplit] at ht
        rcases List.mem_cons.mp ht with h | h
        · subst h
          intro hmem
          rcases List.mem_cons.mp hmem with h | h
          · exact hc h.symm
          · exact ih u (hsplit ▸ List.mem_cons_self u us) h
        · exact ih t (hsplit ▸ List.mem_cons_of_mem u h)

theorem pySplit_subset (sep : Char) (s : List Char) :
    ∀ t ∈ pySplit sep s, ∀ c ∈ t, c ∈ s := by
  induction s with
  | nil =>
    intro t ht
    simp only [pySplit, List.mem_singleton] at ht
    simp [ht]
  | cons c rest ih =>
    intro t ht d hd
    by_cases hc : c = sep
    · simp only [pySplit, if_pos hc, List.mem_cons] at ht
      rcases ht with h | h
      · simp [h] at hd
      · exact List.mem_cons_of_mem c (ih t h d hd)
    · simp only [pySplit, if_neg hc] at ht
      rcases hsplit : pySplit sep rest with _ | ⟨u, us⟩
      · rw [hsplit] at ht
        simp only [List.mem_singleton] at ht
        subst ht
        simp only [List.mem_singleton] at hd
        simp [hd]
      · rw [hsplit] at ht
        rcases List.mem_cons.mp ht with h | h
        · subst h
          rcases List.mem_cons.mp hd with h | h
          · simp [h]
          · exact List.mem_cons_of_mem c
              (ih u (hsplit ▸ List.mem_cons_self u us) d h)
        · exact List.mem_cons_of_mem c
            (ih t (hsplit ▸ List.mem_cons_of_mem u h) d hd)

theorem pySplit_ne_nil (sep : Char) (s : List Char) : pySplit sep s ≠ [] := by
  cases s with
  | nil => simp [pySplit]
  | cons c rest =>
    by_cases hc : c = sep
    · simp [pySplit, hc]
    · simp only [pySplit, if_neg hc]
      rcases pySplit sep rest with _ | ⟨u, us⟩ <;> simp

theorem pyJoin_cons (sep : Char) (x : List Char) (rest : List (List Char))
    (h : rest ≠ []) : pyJoin sep (x :: rest) = x ++ sep :: pyJoin sep rest := by
  cases rest with
  | nil => exact absurd rfl h
  | cons y ys => rfl

theorem pySplit_single {sep : Char} {t : List Char} (h : sep ∉ t) :
    pySplit sep t = [t] := by
  induction t with
  | nil => rfl
  | cons c cs ih =>
    have hc : c ≠ sep := fun hc => h (hc ▸ List.mem_cons_self c cs)
    have hcs : sep ∉ cs := fun hm => h (List.mem_cons_of_mem c hm)
    simp only [pySplit, if_neg hc, ih hcs]

theorem pySplit_append_sep {sep : Char} {t r : List Char} (h : sep ∉ t) :
    pySplit sep (t ++ sep :: r) = t :: pySplit sep r := by
  induction t with
  | nil =>
    simp [pySplit]
  | cons c cs ih =>
    have hc : c ≠ sep := fun hc => h (hc ▸ List.mem_cons_self c cs)
    have hcs : sep ∉ cs := fun hm => h (List.mem_cons_of_mem c hm)
    simp only [List.cons_append, pySplit, if_neg hc]
    rw [show cs.append (sep :: r) = cs ++ sep :: r from rfl, ih hcs]

theorem pySplit_pyJoin (sep : Char) :
    ∀ toks : List (List Char), toks ≠ [] → (∀ t ∈ toks, sep ∉ t) →
    pySplit sep (pyJoin sep toks) = toks := by
  intro toks
  induction toks with
  | nil => intro h; exact absurd rfl h
  | cons t rest ih =>
    intro _ hfree
    have ht : sep ∉ t := hfree t (List.mem_cons_self t rest)
    cases rest with
    | nil => exact pySplit_single ht
    | cons u us =>
      rw [pyJoin_cons sep t (u :: us) (by simp), pySplit_append_sep ht,
        ih (by simp) (fun v hv => hfree v (List.mem_cons_of_mem t hv))]

theorem pyJoin_head {sep : Char} {x : List Char} (rest : List (List Char))
    (h : x ≠ []) : (pyJoin sep (x :: rest)).head? = x.head? := by
  cases rest with
  | nil => rfl
  | cons y ys =>
    rw [pyJoin_cons sep x (y :: ys) (by simp)]
    cases x with
    | nil => exact absurd rfl h
    | cons c cs => rfl

theorem pyPartition_pyJoin {x : List Char} (rest : List (List Char))
    (h : ' ' ∉ x) :
    pyPartition ' ' (pyJoin ' ' (x :: rest)) = (x, pyJoin ' ' rest) := by
  cases rest with
  | nil => exact pyPartition_eq_of_not_mem h
  | cons y ys =>
    rw [pyJoin_cons ' ' x (y :: ys) (by simp)]
    exact pyPartition_append h

/-! ## Lemmas about tag-value escaping -/

theorem unescape_cons_of_ne {c : Char} (hc : c ≠ '\\') (rest : List Char) :
    unescape (c :: rest) = (unescape rest).map (fun v => c :: v) := by
  rw [unescape.eq_def]
  simp [hc]

theorem unescape_esc (e r : Char) (h : escMap e = some r) (rest : List Char) :
    unescape ('\\' :: e :: rest) = (unescape rest).map (fun v => r :: v) := by
  rw [unescape.eq_def]
  simp [h]

theorem unescape_escapeChar (c : Char) (rest : List Char) :
    unescape (escapeChar c ++ rest) = (unescape rest).map (fun v => c :: v) := by
  by_cases h1 : c = ' '
  · subst h1; simp [escapeChar, unescape, escMap]
  · by_cases h2 : c = ';'
    · subst h2; simp [escapeChar, unescape, escMap]
    · by_cases h3 : c = '\r'
      · subst h3; simp [escapeChar, unescape, escMap]
      · by_cases h4 : c = '\n'
        · subst h4; simp [escapeChar, unescape, escMap]
        · by_cases h5 : c = '\\'
          · subst h5; simp [escapeChar, unescape, escMap]
          · rw [escapeChar, if_neg h1, if_neg h2, if_neg h3, if_neg h4,
              if_neg h5]
            exact unescape_cons_of_ne h5 rest

theorem unescape_escape_append (v rest : List Char) :
    unescape (escape v ++ rest) = (unescape rest).map (fun u => v ++ u) := by
  induction v with
  | nil =>
    simp only [escape, List.flatMap_nil, List.nil_append, List.nil_append]
    cases unescape rest <;> simp [Except.map]
  | cons c cs ih =>
    have : escape (c :: cs) = escapeChar c ++ escape cs := by
      simp [escape]
    rw [this, List.append_assoc, unescape_escapeChar, ih]
    cases unescape rest <;> simp [Except.map]

/-- escape/unescape round-trip, the core of claim C2. -/
theorem unescape_escape (v : List Char) : unescape (escape v) = .ok v := by
  have h := unescape_escape_append v []
  simpa [unescape, Except.map] using h

theorem escapeChar_ne_nil (c : Char) : escapeChar c ≠ [] := by
  by_cases h1 : c = ' '
  · simp [escapeChar, h1]
  · by_cases h2 : c = ';'
    · simp [escapeChar, h1, h2]
    · by_cases h3 : c = '\r'
      · simp [escapeChar, h1, h2, h3]
      · by_cases h4 : c = '\n'
        · simp [escapeChar, h1, h2, h3, h4]
        · by_cases h5 : c = '\\'
          · simp [escapeChar, h1, h2, h3, h4, h5]
          · simp [escapeChar, h1, h2, h3, h4, h5]

theorem escape_ne_nil {v : List Char} (h : v ≠ []) : escape v ≠ [] := by
  cases v with
  | nil => exact absurd rfl h
  | cons c cs =>
    have : escape (c :: cs) = escapeChar c ++ escape cs := by simp [escape]
    rw [this]
    intro hnil
    exact escapeChar_ne_nil c (List.append_eq_nil.mp hnil).1

theorem not_mem_escapeChar {d : Char} (hd1 : d ≠ '\\') (hd2 : d ≠ 's')
    (hd3 : d ≠ ':') (hd4 : d ≠ 'r') (hd5 : d ≠ 'n') (hres : escapeChar d ≠ [d])
    (c : Char) : d ∉ escapeChar c := by
  by_cases h1 : c = ' '
  · simp [escapeChar, h1]
    exact ⟨hd1, hd2⟩
  · by_cases h2 : c = ';'
    · simp [escapeChar, h1, h2]
      exact ⟨hd1, hd3⟩
    · by_cases h3 : c = '\r'
      · simp [escapeChar, h1, h2, h3]
        exact ⟨hd1, hd4⟩
      · by_cases h4 : c = '\n'
        · simp [escapeChar, h1, h2, h3, h4]
          exact ⟨hd1, hd5⟩
        · by_cases h5 : c = '\\'
          · simp [escapeChar, h1, h2, h3, h4, h5]
            exact hd1
          · simp only [escapeChar, if_neg h1, if_neg h2, if_neg h3, if_neg h4,
              if_neg h5, List.mem_singleton]
            intro hdc
            subst hdc
            exact hres (by simp [escapeChar, h1, h2, h3, h4, h5])

theorem space_not_mem_escape (v : List Char) : ' ' ∉ escape v := by
  intro h
  rcases List.mem_flatMap.mp h with ⟨c, _, hc⟩
  exact not_mem_escapeChar (by decide) (by decide) (by decide) (by decide)
    (by decide) (by decide) c hc

theorem semi_not_mem_escape (v : List Char) : ';' ∉ escape v := by
  intro h
  rcases List.mem_flatMap.mp h with ⟨c, _, hc⟩
  exact not_mem_escapeChar (by decide) (by decide) (by decide) (by decide)
    (by decide) (by decide) c hc

theorem unescape_dangling_aux :
    ∀ n v u, v.length ≤ n → unescape v = .ok u →
    unescape (v ++ ['\\']) = .error .valueError := by
  intro n
  induction n with
  | zero =>
    intro v u hlen _
    have : v = [] := List.eq_nil_of_length_eq_zero (Nat.le_zero.mp hlen)
    subst this
    rfl
  | succ n ih =>
    intro v u hlen hok
    cases v with
    | nil => rfl
    | cons c rest =>
      by_cases hc : c = '\\'
      · subst hc
        cases rest with
        | nil =>
          rw [unescape.eq_def] at hok
          simp at hok
        | cons e rest2 =>
          rw [unescape.eq_def] at hok
          simp only [if_pos rfl] at hok
          rcases hmap : escMap e with _ | r
          · rw [hmap] at hok
            simp at hok
          · rw [hmap] at hok
            rcases hrec : unescape rest2 with err | u2
            · rw [hrec] at hok
              simp [Except.map] at hok
            · have hlen2 : rest2.length ≤ n := by
                simp only [List.length_cons] at hlen
                omega
              have := ih rest2 u2 hlen2 hrec
              have heq : ('\\' :: e :: rest2) ++ ['\\'] =
                  '\\' :: e :: (rest2 ++ ['\\']) := by simp
              rw [heq, unescape_esc e r hmap, this]
              rfl
      · rcases hrec : unescape rest with err | u2
        · rw [unescape_cons_of_ne hc, hrec] at hok
          simp [Except.map] at hok
        · have hlen2 : rest.length ≤ n := by
            simp only [List.length_cons] at hlen
            omega
          have := ih rest u2 hlen2 hrec
          have heq : (c :: rest) ++ ['\\'] = c :: (rest ++ ['\\']) := by simp
          rw [heq, unescape_cons_of_ne hc, this]
          rfl

theorem unescape_dangling {v u : List Char} (h : unescape v = .ok u) :
    unescape (v ++ ['\\']) = .error .valueError :=
  unescape_dangling_aux v.length v u (Nat.le_refl _) h

/-! ## Claim C2 -/

/-- C2: for every string `s`, `MessageTag.unescape (MessageTag.escape s)`
succeeds and returns `s`: the escape transform on the five reserved
characters and the unescape transform are exact inverses. -/
theorem c2_unescape_escape_exact_inverse (s : List Char) :
    unescape (escape s) = .ok s :=
  unescape_escape s

/-! ## Claim C3 -/

/-- C3 counterexample: `\x` is a backslash at a non-final index that does
not "consume two characters and substitute" — the `TAG_VALUE_ESCAPES`
lookup raises `KeyError` on the unknown pair, so `unescape("\xa")` raises
instead of substituting. -/
theorem c3_counterexample :
    unescape ['\\', 'x', 'a'] = .error .keyError := by rfl

/-- C3 (amended): a trailing unmatched backslash (appended after any text
that unescapes cleanly) makes `MessageTag.unescape` raise the value error
("unexpected end of string"), and therefore `MessageTag.parse` on such a
tag raises it too (shown on `"key=value\"`); a backslash at a non-final
index beginning one of the five valid escape pairs consumes two characters
and substitutes (an invalid pair instead raises a key error, per the
counterexample). -/
theorem c3_dangling_escape :
    (∀ v u, unescape v = .ok u →
      unescape (v ++ ['\\']) = .error .valueError) ∧
    (∀ e r rest, escMap e = some r →
      unescape ('\\' :: e :: rest) = (unescape rest).map (fun x => r :: x)) ∧
    messageTagParse ['k', 'e', 'y', '=', 'v', 'a', 'l', 'u', 'e', '\\'] =
      .error .valueError := by
  refine ⟨fun v u h => unescape_dangling h, fun e r rest h =>
    unescape_esc e r h rest, ?_⟩
  rfl

/-- Witness for C3: the amended claim applied at concrete inputs. -/
theorem c3_dangling_escape_witness :
    unescape (['a'] ++ ['\\']) = .error .valueError ∧
    unescape ('\\' :: 's' :: ['x']) =
      (unescape ['x']).map (fun x => ' ' :: x) :=
  ⟨c3_dangling_escape.1 ['a'] ['a'] (by rfl),
    c3_dangling_escape.2.1 's' ' ' ['x'] (by rfl)⟩

/-! ## Claim C5 -/

theorem delayerAfter_base (base n : Nat) : (delayerAfter base n).base = base := by
  induction n with
  | zero => rfl
  | succ n ih => simp [delayerAfter, AsyncDelayer.aenter] at ih ⊢; exact ih

theorem delayerAfter_maxExp (base n : Nat) :
    (delayerAfter base n).maxExp = 10 := by
  induction n with
  | zero => rfl
  | succ n ih => simp [delayerAfter, AsyncDelayer.aenter] at ih ⊢; exact ih

theorem delayerAfter_exp (base n : Nat) :
    (delayerAfter base n).exp = min n 10 := by
  induction n with
  | zero => rfl
  | succ n ih =>
    have hm := delayerAfter_maxExp base n
    show min ((delayerAfter base n).exp + 1) (delayerAfter base n).maxExp =
      min (n + 1) 10
    rw [ih, hm]
    omega

/-- C5 counterexample: the claimed sequence of upper bounds for base 1
starts with 0, but the first use of the delayer already samples from
`[0, 1 * 2^min(1,10)] = [0, 2]`: the first upper bound is 2, not 0. -/
theorem c5_counterexample : nthBound 1 1 = 2 ∧ (2 : Nat) ≠ 0 :=
  ⟨rfl, by decide⟩

/-- C5 (amended): the nth use (n = 1, 2, ...) saturates the attempt
counter at 10 and samples its wait from `[0, base * 2^min(n,10)]`; for
base 1 the sequence of upper bounds is non-decreasing, follows
(2, 4, 8, 16, ...), and is capped at `2^10` regardless of how many times
the delayer is used. -/
theorem c5_backoff_bounds (base n : Nat) (h : 1 ≤ n) :
    (delayerAfter base n).exp = min n 10 ∧
    nthBound base n = base * 2 ^ min n 10 ∧
    nthBound 1 n = 2 ^ min n 10 ∧
    nthBound 1 n ≤ nthBound 1 (n + 1) ∧
    nthBound 1 n ≤ 2 ^ 10 := by
  have hexp := delayerAfter_exp base n
  have hb : nthBound base n = base * 2 ^ min n 10 := by
    rw [nthBound, AsyncDelayer.bound, delayerAfter_base, hexp]
  have h1 : nthBound 1 n = 2 ^ min n 10 := by
    rw [nthBound, AsyncDelayer.bound, delayerAfter_base, delayerAfter_exp]
    omega
  have h2 : nthBound 1 (n + 1) = 2 ^ min (n + 1) 10 := by
    rw [nthBound, AsyncDelayer.bound, delayerAfter_base, delayerAfter_exp]
    omega
  refine ⟨hexp, hb, h1, ?_, ?_⟩
  · rw [h1, h2]
    exact Nat.pow_le_pow_right (by decide) (by omega)
  · rw [h1]
    exact Nat.pow_le_pow_right (by decide) (by omega)

/-- Witness for C5 at n = 1. -/
theorem c5_backoff_bounds_witness :
    (delayerAfter 1 1).exp = min 1 10 ∧
    nthBound 1 1 = 1 * 2 ^ min 1 10 ∧
    nthBound 1 1 = 2 ^ min 1 10 ∧
    nthBound 1 1 ≤ nthBound 1 (1 + 1) ∧
    nthBound 1 1 ≤ 2 ^ 10 :=
  c5_backoff_bounds 1 1 (by decide)

/-! ## Claim C8 -/

/-- C8: constructing an `IrcProtocol` raises a `ValueError` exactly when
`sasl_mech` is `PLAIN` while `sasl_auth` is `None`; with any other
mechanism (including the `None` default) or with credentials supplied,
construction succeeds.  The check runs synchronously inside `__init__`,
before any connection is attempted. -/
theorem c8_sasl_plain_requires_auth (a : Option (List Char × List Char))
    (m : Option SASLMechanism) :
    (ircProtocolInit a m = .error .valueError ↔
      (m = some .PLAIN ∧ a = none)) ∧
    (¬(m = some .PLAIN ∧ a = none) →
      ircProtocolInit a m = .ok ⟨a, m.getD .NONE⟩) := by
  constructor
  · constructor
    · intro h
      rcases m with _ | mech
      · simp [ircProtocolInit, Option.getD] at h
      · cases mech
        · simp [ircProtocolInit, Option.getD] at h
        · by_cases ha : a = none
          · exact ⟨rfl, ha⟩
          · simp [ircProtocolInit, Option.getD, ha] at h
        · simp [ircProtocolInit, Option.getD] at h
    · rintro ⟨hm, ha⟩
      subst ha
      subst hm
      simp [ircProtocolInit, Option.getD]
  · intro hn
    have hcond : ¬(m.getD .NONE = .PLAIN ∧ a = none) := by
      rintro ⟨hm, ha⟩
      apply hn
      rcases m with _ | mech
      · exact absurd hm (by decide)
      · simp only [Option.getD] at hm
        exact ⟨by rw [hm], ha⟩
    simp only [ircProtocolInit, if_neg hcond]

/-- Witness for C8: PLAIN with credentials succeeds. -/
theorem c8_sasl_plain_requires_auth_witness :
    ircProtocolInit (some (['u'], ['p'])) (some .PLAIN) =
      .ok ⟨some (['u'], ['p']), .PLAIN⟩ :=
  (c8_sasl_plain_requires_auth (some (['u'], ['p'])) (some .PLAIN)).2
    (by simp)

/-! ## Claims C9 and C10 -/

theorem registerAll_eq {α : Type} (w : α) :
    ∀ (ps : List (List Char × Nat)) (T : Handlers α),
    ps.foldl (fun t p => register t p.2 p.1 w) T =
      T ++ ps.map (fun p => (p.2, (p.1, w))) := by
  intro ps
  induction ps with
  | nil => intro T; simp
  | cons p rest ih =>
    intro T
    simp only [List.foldl_cons, List.map_cons]
    rw [ih]
    simp [register]

theorem unregisterAll_eq {α : Type} :
    ∀ (ids : List Nat) (T : Handlers α),
    ids.foldl (fun t i => unregister t i) T =
      T.filter (fun e => decide (e.1 ∉ ids)) := by
  intro ids
  induction ids with
  | nil => intro T; simp
  | cons i rest ih =>
    intro T
    simp only [List.foldl_cons]
    rw [ih, unregister, List.filter_filter]
    congr 1
    funext e
    by_cases h1 : e.1 = i <;> by_cases h2 : e.1 ∈ rest <;> simp [h1, h2]

/-- C9: `wait_for` with a non-empty command set deregisters its temporary
one-shot hooks on every exit path (`outcome` ranges over both the
message-arrived and the timeout case), so the handler table after the call
equals the table before it, and the awaited outcome is returned. -/
theorem c9_wait_for_restores_handlers {α : Type} (T : Handlers α)
    (cmds : List (List Char)) (ids : List Nat) (outcome : Option Message)
    (w : α) (hcmds : cmds ≠ [])
    (hfresh : ∀ i ∈ ids, ∀ e ∈ T, e.1 ≠ i) :
    waitFor T cmds ids outcome w = (outcome, T, ids) := by
  simp only [waitFor, if_neg hcmds]
  rw [registerAll_eq, unregisterAll_eq, List.filter_append]
  have hT : T.filter (fun e => decide (e.1 ∉ ids)) = T := by
    apply List.filter_eq_self.mpr
    intro e he
    simp only [decide_eq_true_eq]
    intro hmem
    exact hfresh e.1 hmem e he rfl
  have hnew : ((cmds.zip ids).map (fun p => (p.2, (p.1, w)))).filter
      (fun e => decide (e.1 ∉ ids)) = [] := by
    apply List.filter_eq_nil_iff.mpr
    intro e he
    rcases List.mem_map.mp he with ⟨p, hp, hpe⟩
    have : p.2 ∈ ids := (List.of_mem_zip hp).2
    subst hpe
    simp [this]
  rw [hT, hnew, List.append_nil]

/-- Witness for C9 on a concrete table, commands, id and both outcomes. -/
theorem c9_wait_for_restores_handlers_witness :
    waitFor [(1, (['P', 'I', 'N', 'G'], 0))] [['A']] [2] none 0 =
      (none, [(1, (['P', 'I', 'N', 'G'], 0))], [2]) :=
  c9_wait_for_restores_handlers [(1, (['P', 'I', 'N', 'G'], 0))] [['A']]
    [2] none 0 (by decide) (by decide)

/-- C10: `wait_for` invoked with zero commands returns `None` immediately
(the `if not cmds` guard), leaves the handler table untouched and
registers no hook. -/
theorem c10_wait_for_no_commands {α : Type} (T : Handlers α)
    (ids : List Nat) (outcome : Option Message) (w : α) :
    waitFor T [] ids outcome w = (none, T, []) := by
  simp [waitFor]

/-! ## Dictionary lemmas, claims C6 and C7 -/

theorem dictGet_dictSet_self {α : Type} (d : List (List Char × α))
    (k : List Char) (v : α) : dictGet (dictSet d k v) k = some v := by
  induction d with
  | nil => simp [dictSet, dictGet]
  | cons e rest ih =>
    by_cases h : e.1 = k
    · simp [dictSet, dictGet, h]
    · simp [dictSet, dictGet, h, ih]

theorem dictGet_dictSet_ne {α : Type} (d : List (List Char × α))
    {k k2 : List Char} (h : k2 ≠ k) (v : α) :
    dictGet (dictSet d k v) k2 = dictGet d k2 := by
  have hk : k ≠ k2 := fun hh => h hh.symm
  induction d with
  | nil => simp [dictSet, dictGet, hk]
  | cons e rest ih =>
    by_cases he : e.1 = k
    · simp [dictSet, dictGet, he, hk]
    · simp only [dictSet, if_neg he, dictGet]
      by_cases hk2 : e.1 = k2 <;> simp [hk2, ih]

/-- The tracking fold of `_handle_cap_ls` preserves Pending entries. -/
theorem capLs_fold_preserve (hooks : List (List Char)) :
    ∀ (l : List Cap) (t : CapsTable) (k : List Char) (c : Cap),
    dictGet t k = some (c, none) →
    ∃ c2, dictGet (l.foldl (fun t cap =>
      if cap.name ∈ hooks then dictSet t cap.name (cap, none) else t) t) k =
      some (c2, none) := by
  intro l
  induction l with
  | nil => intro t k c h; exact ⟨c, h⟩
  | cons cap rest ih =>
    intro t k c h
    simp only [List.foldl_cons]
    by_cases hh : cap.name ∈ hooks
    · rw [if_pos hh]
      by_cases hk : k = cap.name
      · refine ih _ k cap ?_
        rw [hk]
        exact dictGet_dictSet_self t cap.name (cap, none)
      · refine ih _ k c ?_
        rw [dictGet_dictSet_ne t hk (cap, none)]
        exact h
    · rw [if_neg hh]
      exact ih t k c h

/-- After the tracking fold of `_handle_cap_ls`, every listed capability
with a registered hook is Pending. -/
theorem capLs_fold_pending (hooks : List (List Char)) :
    ∀ (l : List Cap) (t : CapsTable) (cap : Cap), cap ∈ l →
    cap.name ∈ hooks →
    ∃ c2, dictGet (l.foldl (fun t cap =>
      if cap.name ∈ hooks then dictSet t cap.name (cap, none) else t) t)
      cap.name = some (c2, none) := by
  intro l
  induction l with
  | nil => intro t cap h; simp at h
  | cons cap0 rest ih =>
    intro t cap hmem hh
    simp only [List.foldl_cons]
    rcases List.mem_cons.mp hmem with h | h
    · subst h
      rw [if_pos hh]
      exact capLs_fold_preserve hooks rest _ cap.name cap
        (dictGet_dictSet_self t cap.name (cap, none))
    · by_cases hh0 : cap0.name ∈ hooks
      · rw [if_pos hh0]
        exact ih _ cap h hh
      · rw [if_neg hh0]
        exact ih t cap h hh

/-- C6: on an inbound `CAP LS` message (the third parameter exists, as it
does on every LS), every offered capability whose name has a registered
capability-hook is tracked with the undecided Pending state (`(cap,
None)`); when the page is final (third parameter not `"*"`) exactly one
`CAP REQ :<name>` line is sent per tracked capability and a single
`CAP END` is sent exactly when no capability is tracked; on a non-final
page nothing is sent. -/
theorem c6_cap_ls (hooks : List (List Char)) (params : List (List Char))
    (caps : CapsTable) (p2 : List Char) (h2 : params.get? 2 = some p2) :
    ∃ caps2 sent, capLsStep hooks params caps = some (caps2, sent) ∧
      (∀ cap ∈ capMsgList params, cap.name ∈ hooks →
        ∃ c, dictGet caps2 cap.name = some (c, none)) ∧
      (p2 ≠ ['*'] → sent =
        caps2.map (fun e => ('C' :: 'A' :: 'P' :: ' ' :: 'R' :: 'E' :: 'Q' ::
          ' ' :: ':' :: []) ++ e.1) ++
        (if caps2 = [] then [['C', 'A', 'P', ' ', 'E', 'N', 'D']] else [])) ∧
      (p2 = ['*'] → sent = []) := by
  simp only [capLsStep, h2]
  by_cases hp : p2 = ['*']
  · rw [if_neg (by simpa using hp)]
    exact ⟨_, [], rfl,
      fun cap hmem hh => capLs_fold_pending hooks _ caps cap hmem hh,
      fun hne => absurd hp hne, fun _ => rfl⟩
  · rw [if_pos (by simpa using hp)]
    exact ⟨_, _, rfl,
      fun cap hmem hh => capLs_fold_pending hooks _ caps cap hmem hh,
      fun _ => rfl, fun heq => absurd heq hp⟩

/-- Witness for C6: a final LS page offering `sasl` with a registered
`sasl` hook. -/
theorem c6_cap_ls_witness :
    ∃ caps2 sent,
      capLsStep [['s', 'a', 's', 'l']]
        [['*'], ['L', 'S'], ['s', 'a', 's', 'l']] [] = some (caps2, sent) ∧
      (∀ cap ∈ capMsgList [['*'], ['L', 'S'], ['s', 'a', 's', 'l']],
        cap.name ∈ [['s', 'a', 's', 'l']] →
        ∃ c, dictGet caps2 cap.name = some (c, none)) ∧
      (['s', 'a', 's', 'l'] ≠ ['*'] → sent =
        caps2.map (fun e => ('C' :: 'A' :: 'P' :: ' ' :: 'R' :: 'E' :: 'Q' ::
          ' ' :: ':' :: []) ++ e.1) ++
        (if caps2 = [] then [['C', 'A', 'P', ' ', 'E', 'N', 'D']] else [])) ∧
      (['s', 'a', 's', 'l'] = ['*'] → sent = []) :=
  c6_cap_ls [['s', 'a', 's', 'l']] [['*'], ['L', 'S'], ['s', 'a', 's', 'l']]
    [] ['s', 'a', 's', 'l'] (by rfl)

/-- The update fold of `_handle_cap_reply` preserves decided entries with
the same decision. -/
theorem capReply_foldlM_preserve (enabled : Bool) :
    ∀ (l : List Cap) (t t2 : CapsTable),
    l.foldlM (fun t cap =>
      match dictGet t cap.name with
      | some cur => some (dictSet t cap.name (cur.1, some enabled))
      | none => none) t = some t2 →
    ∀ k c, dictGet t k = some (c, some enabled) →
    ∃ c2, dictGet t2 k = some (c2, some enabled) := by
  intro l
  induction l with
  | nil =>
    intro t t2 hfold k c h
    simp only [List.foldlM_nil, Option.pure_def, Option.some.injEq] at hfold
    exact ⟨c, hfold ▸ h⟩
  | cons cap rest ih =>
    intro t t2 hfold k c h
    rw [List.foldlM_cons] at hfold
    rcases hget : dictGet t cap.name with _ | cur
    · rw [hget] at hfold
      simp at hfold
    · rw [hget] at hfold
      simp only [Option.bind_eq_bind, Option.some_bind] at hfold
      by_cases hk : k = cap.name
      · refine ih _ t2 hfold k (cur.1) ?_
        rw [hk]
        exact dictGet_dictSet_self t cap.name (cur.1, some enabled)
      · refine ih _ t2 hfold k c ?_
        rw [dictGet_dictSet_ne t hk (cur.1, some enabled)]
        exact h

/-- The update fold of `_handle_cap_reply` succeeds when every listed
capability is tracked, marks every listed capability with the decision,
and leaves unlisted keys unchanged. -/
theorem capReply_foldlM_ok (enabled : Bool) :
    ∀ (l : List Cap) (t : CapsTable),
    (∀ cap ∈ l, (dictGet t cap.name).isSome) →
    ∃ t2, l.foldlM (fun t cap =>
      match dictGet t cap.name with
      | some cur => some (dictSet t cap.name (cur.1, some enabled))
      | none => none) t = some t2 ∧
      (∀ cap ∈ l, ∃ c, dictGet t2 cap.name = some (c, some enabled)) ∧
      (∀ k, (∀ cap ∈ l, cap.name ≠ k) → dictGet t2 k = dictGet t k) := by
  intro l
  induction l with
  | nil =>
    intro t _
    exact ⟨t, by simp, by simp, fun k _ => rfl⟩
  | cons cap rest ih =>
    intro t htracked
    rcases hget : dictGet t cap.name with _ | cur
    · have := htracked cap (List.mem_cons_self cap rest)
      rw [hget] at this
      simp at this
    · have hrest : ∀ cap2 ∈ rest,
          (dictGet (dictSet t cap.name (cur.1, some enabled))
            cap2.name).isSome := by
        intro cap2 hmem
        by_cases hk : cap2.name = cap.name
        · rw [hk, dictGet_dictSet_self]
          rfl
        · rw [dictGet_dictSet_ne t hk (cur.1, some enabled)]
          exact htracked cap2 (List.mem_cons_of_mem cap hmem)
      rcases ih _ hrest with ⟨t2, hfold, hupd, hframe⟩
      refine ⟨t2, ?_, ?_, ?_⟩
      · rw [List.foldlM_cons, hget]
        simpa using hfold
      · intro cap2 hmem
        rcases List.mem_cons.mp hmem with h | h
        · subst h
          exact capReply_foldlM_preserve enabled rest _ t2 hfold cap2.name
            (cur.1) (dictGet_dictSet_self t cap2.name (cur.1, some enabled))
        · exact hupd cap2 h
      · intro k hne
        rw [hframe k (fun cap2 hmem =>
          hne cap2 (List.mem_cons_of_mem cap hmem))]
        exact dictGet_dictSet_ne t
          (fun hk => hne cap (List.mem_cons_self cap rest) hk.symm)
          (cur.1, some enabled)

/-- C7: on an inbound `CAP ACK` or `CAP NAK` message whose listed
capabilities are all tracked, every listed capability is set to Enabled
(on ACK) or Disabled (on NAK) while keeping its stored `Cap` object,
every unlisted capability is untouched, and a single `CAP END` line is
sent if and only if, after the update, every tracked capability has a
decided (non-Pending) state. -/
theorem c7_cap_reply (params : List (List Char)) (caps : CapsTable)
    (sub : List Char) (h1 : params.get? 1 = some sub)
    (hsub : sub = ['A', 'C', 'K'] ∨ sub = ['N', 'A', 'K'])
    (htracked : ∀ cap ∈ capMsgList params,
      (dictGet caps cap.name).isSome) :
    ∃ caps2 sent, capReplyStep params caps = some (caps2, sent) ∧
      (∀ cap ∈ capMsgList params, ∃ c, dictGet caps2 cap.name =
        some (c, some (decide (sub = ['A', 'C', 'K'])))) ∧
      (∀ k, (∀ cap ∈ capMsgList params, cap.name ≠ k) →
        dictGet caps2 k = dictGet caps k) ∧
      (sent = [['C', 'A', 'P', ' ', 'E', 'N', 'D']] ↔
        ∀ e ∈ caps2, (e.2.2).isSome) ∧
      (sent = [] ↔ ¬ ∀ e ∈ caps2, (e.2.2).isSome) := by
  rcases capReply_foldlM_ok (decide (sub = ['A', 'C', 'K']))
    (capMsgList params) caps htracked with ⟨t2, hfold, hupd, hframe⟩
  refine ⟨t2,
    (if t2.all (fun e => e.2.2.isSome) then [['C', 'A', 'P', ' ', 'E', 'N',
      'D']] else []), ?_, hupd, hframe, ?_, ?_⟩
  · simp only [capReplyStep, h1]
    rw [hfold]
  · by_cases hall : t2.all (fun e => e.2.2.isSome)
    · rw [if_pos hall]
      exact ⟨fun _ e he => List.all_eq_true.mp hall e he, fun _ => rfl⟩
    · rw [if_neg hall]
      constructor
      · intro hsent
        exact absurd hsent (by simp)
      · intro hforall
        exact absurd (List.all_eq_true.mpr fun e he => hforall e he) hall
  · by_cases hall : t2.all (fun e => e.2.2.isSome)
    · rw [if_pos hall]
      constructor
      · intro hsent
        exact absurd hsent (by simp)
      · intro hne
        exact absurd (fun e he => List.all_eq_true.mp hall e he) hne
    · rw [if_neg hall]
      exact ⟨fun _ hforall =>
        absurd (List.all_eq_true.mpr fun e he => hforall e he) hall,
        fun _ => rfl⟩

/-! ## Monadic helper lemmas for Except -/

theorem except_error_bind {ε α β : Type} (e : ε) (g : α → Except ε β) :
    (Except.error e >>= g) = Except.error e := rfl

theorem except_ok_bind {ε α β : Type} (a : α) (g : α → Except ε β) :
    (Except.ok a >>= g) = g a := rfl

theorem mapM_error_iff {ε α β : Type} (f : α → Except ε β) :
    ∀ l : List α, (∃ e, l.mapM f = .error e) ↔ ∃ x ∈ l, ∃ e, f x = .error e := by
  intro l
  induction l with
  | nil =>
    constructor
    · rintro ⟨e, he⟩
      simp [List.mapM_nil] at he
      cases he
    · rintro ⟨x, hx, _⟩
      simp at hx
  | cons a as ih =>
    rw [List.mapM_cons]
    rcases hfa : f a with e | b
    · rw [except_error_bind]
      constructor
      · intro _
        exact ⟨a, List.mem_cons_self a as, e, hfa⟩
      · intro _
        exact ⟨e, rfl⟩
    · rw [except_ok_bind]
      rcases has : as.mapM f with e2 | bs
      · rw [except_error_bind]
        constructor
        · intro _
          rcases ih.mp ⟨e2, has⟩ with ⟨x, hx, e3, hfx⟩
          exact ⟨x, List.mem_cons_of_mem a hx, e3, hfx⟩
        · intro _
          exact ⟨e2, rfl⟩
      · rw [except_ok_bind]
        constructor
        · rintro ⟨e, he⟩
          cases he
        · rintro ⟨x, hx, e, hfx⟩
          rcases List.mem_cons.mp hx with h | h
          · subst h
            rw [hfa] at hfx
            cases hfx
          · rcases ih.mpr ⟨x, h, e, hfx⟩ with ⟨e2, he2⟩
            rw [has] at he2
            cases he2

theorem mapM_map_ok {ε α β γ : Type} (f : β → Except ε γ) (s : α → β)
    (g : α → γ) : ∀ l : List α, (∀ x ∈ l, f (s x) = .ok (g x)) →
    (l.map s).mapM f = .ok (l.map g) := by
  intro l
  induction l with
  | nil => intro _; rfl
  | cons a as ih =>
    intro h
    rw [List.map_cons, List.mapM_cons, h a (List.mem_cons_self a as),
      except_ok_bind, ih (fun x hx => h x (List.mem_cons_of_mem a hx)),
      except_ok_bind]
    rfl

/-! ## Tag round-trip lemmas -/

theorem messageTagParse_roundtrip (t : MessageTag) (hname : '=' ∉ t.name)
    (hval : t.value ≠ some []) :
    messageTagParse (messageTagStr t) = .ok t := by
  rcases t with ⟨name, value⟩
  rcases value with _ | v
  · simp only [messageTagStr, messageTagParse]
    rw [pyPartition_eq_of_not_mem (by simpa using hname)]
    simp
  · have hv : v ≠ [] := fun h => hval (by rw [h])
    simp only [messageTagStr]
    rw [if_neg hv]
    simp only [messageTagParse]
    rw [pyPartition_append (by simpa using hname)]
    simp only
    rw [if_neg (escape_ne_nil hv), unescape_escape v]
    simp [Except.map, hv]

theorem dictSet_not_mem_keys {α : Type} :
    ∀ (d : List (List Char × α)) (k : List Char) (v : α),
    k ∉ d.map Prod.fst → dictSet d k v = d ++ [(k, v)] := by
  intro d
  induction d with
  | nil => intro k v _; rfl
  | cons e rest ih =>
    intro k v h
    simp only [List.map_cons, List.mem_cons] at h
    push_neg at h
    rw [dictSet, if_neg (fun he => h.1 he.symm), ih k v h.2]
    rfl

theorem tagListOfList_foldl :
    ∀ (ts : List MessageTag) (acc : TagList),
    (ts.map (fun t => t.name)).Nodup →
    (∀ t ∈ ts, t.name ∉ acc.map Prod.fst) →
    ts.foldl (fun d t => dictSet d t.name t) acc =
      acc ++ ts.map (fun t => (t.name, t)) := by
  intro ts
  induction ts with
  | nil => intro acc _ _; simp
  | cons t rest ih =>
    intro acc hnd hdisj
    simp only [List.map_cons, List.nodup_cons] at hnd
    simp only [List.foldl_cons]
    rw [dictSet_not_mem_keys acc t.name t
      (hdisj t (List.mem_cons_self t rest))]
    rw [ih (acc ++ [(t.name, t)]) hnd.2 ?_]
    · simp
    · intro u hu
      simp only [List.map_append, List.mem_append, List.map_cons]
      push_neg
      constructor
      · exact hdisj u (List.mem_cons_of_mem t hu)
      · simp only [List.map_nil, List.mem_singleton]
        intro heq
        exact hnd.1 (heq ▸ List.mem_map_of_mem (fun t => t.name) hu)

theorem tagListOfList_eq (ts : List MessageTag)
    (hnd : (ts.map (fun t => t.name)).Nodup) :
    tagListOfList ts = ts.map (fun t => (t.name, t)) := by
  rw [tagListOfList, tagListOfList_foldl ts [] hnd (by simp)]
  rfl

theorem mem_messageTagStr {c : Char} (t : MessageTag)
    (h : c ∈ messageTagStr t) :
    c ∈ t.name ∨ c = '=' ∨ ∃ v, t.value = some v ∧ c ∈ escape v := by
  rcases t with ⟨name, value⟩
  rcases value with _ | v
  · exact Or.inl h
  · simp only [messageTagStr] at h
    by_cases hv : v = []
    · rw [if_pos hv] at h
      exact Or.inl h
    · rw [if_neg hv] at h
      rcases List.mem_append.mp h with h | h
      · exact Or.inl h
      · rcases List.mem_cons.mp h with h | h
        · exact Or.inr (Or.inl h)
        · exact Or.inr (Or.inr ⟨v, rfl, h⟩)

theorem mem_pyJoin {c sep : Char} :
    ∀ toks : List (List Char), c ∈ pyJoin sep toks →
    c = sep ∨ ∃ t ∈ toks, c ∈ t := by
  intro toks
  induction toks with
  | nil => intro h; simp [pyJoin] at h
  | cons t rest ih =>
    intro h
    cases rest with
    | nil => exact Or.inr ⟨t, List.mem_singleton_self t, h⟩
    | cons u us =>
      rw [pyJoin_cons sep t (u :: us) (by simp)] at h
      rcases List.mem_append.mp h with h | h
      · exact Or.inr ⟨t, List.mem_cons_self t (u :: us), h⟩
      · rcases List.mem_cons.mp h with h | h
        · exact Or.inl h
        · rcases ih h with h | ⟨v, hv, hc⟩
          · exact Or.inl h
          · exact Or.inr ⟨v, List.mem_cons_of_mem t hv, hc⟩

theorem space_not_mem_tagListStr (tags : TagList)
    (hWF : ∀ e ∈ tags, TagEntryWF e) : ' ' ∉ tagListStr tags := by
  intro hmem
  rw [tagListStr] at hmem
  rcases List.mem_cons.mp hmem with h | h
  · cases h
  · rcases mem_pyJoin _ h with h | ⟨v, hv, hc⟩
    · cases h
    · rcases List.mem_map.mp hv with ⟨e, he, hev⟩
      subst hev
      rcases mem_messageTagStr e.2 hc with h | h | ⟨v2, _, hc2⟩
      · exact ((hWF e he).2.2.2.1) h
      · cases h
      · exact space_not_mem_escape v2 hc2

theorem semi_not_mem_messageTagStr (e : List Char × MessageTag)
    (hWF : TagEntryWF e) : ';' ∉ messageTagStr e.2 := by
  intro hmem
  rcases mem_messageTagStr e.2 hmem with h | h | ⟨v, _, hc⟩
  · exact hWF.2.2.1 h
  · cases h
  · exact semi_not_mem_escape v hc

theorem messageTagStr_ne_nil (e : List Char × MessageTag)
    (hSC : ¬(e.2.name = [] ∧ e.2.value = none)) (hWF : TagEntryWF e) :
    messageTagStr e.2 ≠ [] := by
  rcases ht : e.2.value with _ | v
  · intro h
    rw [messageTagStr, ht] at h
    exact hSC ⟨h, ht⟩
  · have hv : v ≠ [] := fun hnil => hWF.2.2.2.2 (hnil ▸ ht)
    simp only [messageTagStr, ht]
    rw [if_neg hv]
    simp

theorem tagListParse_tagListStr (tags : TagList)
    (hWF : ∀ e ∈ tags, TagEntryWF e)
    (hnd : (tags.map Prod.fst).Nodup)
    (hSC : ∀ e ∈ tags, ¬(e.2.name = [] ∧ e.2.value = none))
    (hne : tags ≠ []) :
    tagListParse ((tagListStr tags).drop 1) = .ok tags := by
  have hdrop : (tagListStr tags).drop 1 =
      pyJoin ';' (tags.map (fun e => messageTagStr e.2)) := rfl
  rw [hdrop, tagListParse]
  rw [pySplit_pyJoin ';' (tags.map (fun e => messageTagStr e.2))
    (by simpa using hne)
    (fun t ht => by
      rcases List.mem_map.mp ht with ⟨e, he, hev⟩
      exact hev ▸ semi_not_mem_messageTagStr e (hWF e he))]
  rw [List.filter_eq_self.mpr (fun t ht => by
    rcases List.mem_map.mp ht with ⟨e, he, hev⟩
    subst hev
    simpa using messageTagStr_ne_nil e (hSC e he) (hWF e he))]
  rw [mapM_map_ok messageTagParse (fun e => messageTagStr e.2)
    (fun e => e.2) tags
    (fun e he => messageTagParse_roundtrip e.2 ((hWF e he).2.1)
      ((hWF e he).2.2.2.2))]
  have hnames : ((tags.map (fun e => e.2)).map (fun t => t.name)).Nodup := by
    rw [List.map_map]
    have : (tags.map (fun e => e.2.name)) = tags.map Prod.fst :=
      List.map_congr_left (fun e he => ((hWF e he).1).symm)
    simpa [Function.comp] using this ▸ hnd
  simp only [Except.map]
  rw [tagListOfList_eq _ hnames]
  congr 1
  rw [List.map_map]
  have : tags.map ((fun t => (t.name, t)) ∘ (fun e => e.2)) =
      tags.map (fun e => (e.1, e.2)) :=
    List.map_congr_left (fun e he => by
      simp only [Function.comp]
      rw [(hWF e he).1])
  rw [this]
  simp

theorem tagListParse_nil : tagListParse [] = .ok ([] : TagList) := rfl

/-! ## Prefix round-trip lemmas -/

theorem scanSplit_append (sp : List Char) :
    ∀ s : List Char, (scanSplit sp s).1 ++ (scanSplit sp s).2 = s := by
  intro s
  induction s with
  | nil => rfl
  | cons c rest ih =>
    by_cases h : c ∈ sp ∧ rest ≠ []
    · simp [scanSplit, h]
    · simp only [scanSplit, if_neg h]
      simpa using ih

theorem scanSplit_snd (sp : List Char) :
    ∀ s : List Char, (scanSplit sp s).2 = [] ∨
    ∃ c r, (scanSplit sp s).2 = c :: r ∧ c ∈ sp ∧ r ≠ [] := by
  intro s
  induction s with
  | nil => exact Or.inl rfl
  | cons c rest ih =>
    by_cases h : c ∈ sp ∧ rest ≠ []
    · refine Or.inr ⟨c, rest, ?_, h.1, h.2⟩
      simp [scanSplit, h]
    · simp only [scanSplit, if_neg h]
      exact ih

theorem pfxCore_nick_eq (c : Char) (cs : List Char) :
    (pfxCore (c :: cs)).nick = c :: (scanSplit ['!', '@'] cs).1 := by
  simp only [pfxCore]
  rcases hsnd : (scanSplit ['!', '@'] cs).2 with _ | ⟨r, rs⟩
  · rfl
  · dsimp only
    by_cases hr : r = '!'
    · rw [if_pos hr]
      cases rs with
      | nil => rfl
      | cons u0 us =>
        dsimp only
        rcases hsnd2 : (scanSplit ['@'] us).2 with _ | ⟨h0, hs⟩ <;> rfl
    · rw [if_neg hr]

theorem pfxCore_mask (c : Char) (cs : List Char) :
    (pfxCore (c :: cs)).mask = c :: cs := by
  have happ := scanSplit_append ['!', '@'] cs
  have hprop := scanSplit_snd ['!', '@'] cs
  simp only [pfxCore]
  rcases hsnd : (scanSplit ['!', '@'] cs).2 with _ | ⟨r, rs⟩
  · rw [hsnd, List.append_nil] at happ
    simp [Pfx.mask, happ]
  · rw [hsnd] at happ hprop
    have hmem : r ∈ ['!', '@'] := by
      rcases hprop with h | ⟨c2, r2, heq, hm, hn⟩
      · cases h
      · injection heq with h1 h2
        exact h1 ▸ hm
    have hne : rs ≠ [] := by
      rcases hprop with h | ⟨c2, r2, heq, hm, hn⟩
      · cases h
      · injection heq with h1 h2
        exact h2 ▸ hn
    dsimp only
    by_cases hr : r = '!'
    · subst hr
      rw [if_pos rfl]
      cases rs with
      | nil => exact absurd rfl hne
      | cons u0 us =>
        dsimp only
        have happ2 := scanSplit_append ['@'] us
        have hprop2 := scanSplit_snd ['@'] us
        rcases hsnd2 : (scanSplit ['@'] us).2 with _ | ⟨h0, hs⟩
        · rw [hsnd2, List.append_nil] at happ2
          simp only [Pfx.mask, List.append_nil, List.cons_append,
            List.append_assoc]
          rw [happ2, happ]
        · rw [hsnd2] at happ2 hprop2
          have h0eq : h0 = '@' := by
            rcases hprop2 with h | ⟨c3, r3, heq2, hm2, hn2⟩
            · cases h
            · injection heq2 with h3 h4
              rcases List.mem_singleton.mp hm2 with h5
              exact h3 ▸ h5 ▸ rfl
          rw [h0eq] at happ2
          simp only [Pfx.mask, List.cons_append, List.append_assoc]
          rw [happ2, happ]
    · have hr2 : r = '@' := by
        rcases List.mem_cons.mp hmem with h | h
        · exact absurd h hr
        · simpa using h
      subst hr2
      rw [if_neg hr]
      simp only [Pfx.mask, List.append_nil, List.cons_append]
      rw [happ]

theorem pfxParse_roundtrip (c : Char) (cs : List Char)
    (hnl : '\n' ∉ c :: cs)
    (hSC : (pfxCore (c :: cs)).nick.head? = some ':' →
      (pfxCore (c :: cs)).mask = [':']) :
    pfxParse ((pfxCore (c :: cs)).mask) = .ok (pfxCore (c :: cs)) := by
  rw [pfxCore_mask]
  by_cases hc : c = ':' ∧ cs ≠ []
  · exfalso
    have hhead : (pfxCore (c :: cs)).nick.head? = some ':' := by
      rw [pfxCore_nick_eq, hc.1]
      rfl
    have hmm := hSC hhead
    rw [pfxCore_mask] at hmm
    injection hmm with _ h2
    exact hc.2 h2
  · simp only [pfxParse]
    rw [if_neg hnl, if_neg hc]

/-! ## Parameter-list round-trip lemmas -/

theorem paramsGo_token :
    ∀ (u acc rest : List Char), ' ' ∉ u →
    paramsGo (some acc) (u ++ rest) = paramsGo (some (acc ++ u)) rest := by
  intro u
  induction u with
  | nil => intro acc rest _; simp
  | cons c cs ih =>
    intro acc rest h
    have hc : c ≠ ' ' := fun hc => h (hc ▸ List.mem_cons_self c cs)
    have hcs : ' ' ∉ cs := fun hm => h (List.mem_cons_of_mem c hm)
    simp only [List.cons_append, paramsGo]
    rw [if_neg hc]
    rw [show cs.append rest = cs ++ rest from rfl,
      ih (acc ++ [c]) rest hcs]
    simp

theorem paramsGo_flush (t rest : List Char) :
    paramsGo (some t) (' ' :: rest) =
      (t :: (paramsGo none rest).1, (paramsGo none rest).2) := by
  simp [paramsGo]

theorem paramsGo_start {c : Char} (hc1 : c ≠ ':') (hc2 : c ≠ ' ')
    (rest : List Char) :
    paramsGo none (c :: rest) = paramsGo (some [c]) rest := by
  simp [paramsGo, hc1, hc2]

theorem paramsGo_trail_start (rest : List Char) :
    paramsGo none (':' :: rest) = ([rest], true) := by
  simp [paramsGo]

theorem goodTok_head {t : List Char} (h : goodTok t) :
    ∃ c cs, t = c :: cs ∧ c ≠ ':' ∧ c ≠ ' ' ∧ ' ' ∉ cs := by
  rcases t with _ | ⟨c, cs⟩
  · exact absurd rfl h.1
  · refine ⟨c, cs, rfl, ?_, ?_, ?_⟩
    · intro hc
      exact h.2.2 (by rw [hc]; rfl)
    · intro hc
      exact h.2.1 (hc ▸ List.mem_cons_self c cs)
    · intro hm
      exact h.2.1 (List.mem_cons_of_mem c hm)

theorem paramsGo_join_good :
    ∀ toks : List (List Char), (∀ t ∈ toks, goodTok t) →
    paramsGo none (pyJoin ' ' toks) = (toks, false) := by
  intro toks
  induction toks with
  | nil => intro _; rfl
  | cons t rest ih =>
    intro hgood
    rcases goodTok_head (hgood t (List.mem_cons_self t rest)) with
      ⟨c, cs, ht, hc1, hc2, hcs⟩
    subst ht
    cases rest with
    | nil =>
      show paramsGo none (c :: cs) = ([c :: cs], false)
      rw [paramsGo_start hc1 hc2]
      have : cs = cs ++ [] := by simp
      rw [this, paramsGo_token cs [c] [] hcs]
      simp [paramsGo]
    | cons u us =>
      rw [pyJoin_cons ' ' (c :: cs) (u :: us) (by simp)]
      rw [show (c :: cs) ++ ' ' :: pyJoin ' ' (u :: us) =
        c :: (cs ++ ' ' :: pyJoin ' ' (u :: us)) from rfl]
      rw [paramsGo_start hc1 hc2, paramsGo_token cs [c] _ hcs,
        paramsGo_flush]
      rw [ih (fun v hv => hgood v (List.mem_cons_of_mem _ hv))]
      simp

theorem paramsGo_join_trail :
    ∀ (toks : List (List Char)) (last : List Char),
    (∀ t ∈ toks, goodTok t) →
    paramsGo none (pyJoin ' ' (toks ++ [':' :: last])) =
      (toks ++ [last], true) := by
  intro toks
  induction toks with
  | nil =>
    intro last _
    show paramsGo none (pyJoin ' ' [':' :: last]) = ([last], true)
    exact paramsGo_trail_start last
  | cons t rest ih =>
    intro last hgood
    rcases goodTok_head (hgood t (List.mem_cons_self t rest)) with
      ⟨c, cs, ht, hc1, hc2, hcs⟩
    subst ht
    rw [List.cons_append, pyJoin_cons ' ' (c :: cs) (rest ++ [':' :: last])
      (by simp)]
    rw [show (c :: cs) ++ ' ' :: pyJoin ' ' (rest ++ [':' :: last]) =
      c :: (cs ++ ' ' :: pyJoin ' ' (rest ++ [':' :: last])) from rfl]
    rw [paramsGo_start hc1 hc2, paramsGo_token cs [c] _ hcs, paramsGo_flush]
    rw [ih last (fun v hv => hgood v (List.mem_cons_of_mem _ hv))]
    simp

theorem paramsGo_inv :
    ∀ (text : List Char) (cur : Option (List Char)),
    (∀ acc, cur = some acc → goodTok acc) →
    ((paramsGo cur text).2 = true →
      ∃ pre last, (paramsGo cur text).1 = pre ++ [last] ∧
        ∀ t ∈ pre, goodTok t) ∧
    ((paramsGo cur text).2 = false →
      ∀ t ∈ (paramsGo cur text).1, goodTok t) := by
  intro text
  induction text with
  | nil =>
    intro cur hcur
    rcases cur with _ | t
    · exact ⟨(fun h => by simp [paramsGo] at h),
        (fun _ t ht => by simp [paramsGo] at ht)⟩
    · refine ⟨(fun h => by simp [paramsGo] at h), fun _ v hv => ?_⟩
      simp only [paramsGo, List.mem_singleton] at hv
      exact hv ▸ hcur t rfl
  | cons c rest ih =>
    intro cur hcur
    rcases cur with _ | t
    · by_cases hc1 : c = ':'
      · subst hc1
        rw [paramsGo_trail_start]
        exact ⟨(fun _ => ⟨[], rest, rfl, by simp⟩), (fun h => by simp at h)⟩
      · by_cases hc2 : c = ' '
        · subst hc2
          have heq : paramsGo none (' ' :: rest) = paramsGo none rest := by
            simp [paramsGo]
          rw [heq]
          exact ih none (by simp)
        · rw [paramsGo_start hc1 hc2]
          refine ih (some [c]) ?_
          intro acc hacc
          injection hacc with hacc
          subst hacc
          refine ⟨by simp, ?_, by simpa using hc1⟩
          intro hm
          exact hc2 (List.mem_singleton.mp hm).symm
    · have ht : goodTok t := hcur t rfl
      by_cases hc2 : c = ' '
      · subst hc2
        rw [paramsGo_flush]
        rcases ih none (by simp) with ⟨h1, h2⟩
        constructor
        · intro htr
          rcases h1 htr with ⟨pre, last, heq, hpre⟩
          refine ⟨t :: pre, last, by rw [heq]; rfl, ?_⟩
          intro v hv
          rcases List.mem_cons.mp hv with h | h
          · exact h ▸ ht
          · exact hpre v h
        · intro hf v hv
          rcases List.mem_cons.mp hv with h | h
          · exact h ▸ ht
          · exact h2 hf v h
      · have heq : paramsGo (some t) (c :: rest) =
            paramsGo (some (t ++ [c])) rest := by
          simp [paramsGo, hc2]
        rw [heq]
        refine ih (some (t ++ [c])) ?_
        intro acc hacc
        injection hacc with hacc
        subst hacc
        refine ⟨by simp, ?_, ?_⟩
        · intro hm
          rcases List.mem_append.mp hm with h | h
          · exact ht.2.1 h
          · exact hc2 (List.mem_singleton.mp h).symm
        · rcases goodTok_head ht with ⟨c0, cs0, ht0, hc0, _, _⟩
          rw [ht0]
          simpa using hc0

theorem mkParamList_true (seq : List (List Char)) :
    mkParamList seq true = ⟨seq, true⟩ := by
  simp [mkParamList]

theorem mkParamList_false_good (seq : List (List Char))
    (h : ∀ t ∈ seq, ' ' ∉ t) : mkParamList seq false = ⟨seq, false⟩ := by
  simp only [mkParamList, Bool.false_or]
  rcases hlast : seq.getLast? with _ | l
  · rfl
  · have hml : l ∈ seq.getLast? := by simp [Option.mem_def, hlast]
    rcases List.mem_getLast?_eq_getLast hml with ⟨hn, hl⟩
    have hmem : l ∈ seq := hl ▸ List.getLast_mem hn
    simp [h l hmem]

theorem paramListParse_join_good (toks : List (List Char))
    (h : ∀ t ∈ toks, goodTok t) :
    paramListParse (pyJoin ' ' toks) = ⟨toks, false⟩ := by
  rw [paramListParse, paramsGo_join_good toks h]
  exact mkParamList_false_good toks (fun t ht => (h t ht).2.1)

theorem paramListParse_join_trail (toks : List (List Char))
    (last : List Char) (h : ∀ t ∈ toks, goodTok t) :
    paramListParse (pyJoin ' ' (toks ++ [':' :: last])) =
      ⟨toks ++ [last], true⟩ := by
  rw [paramListParse, paramsGo_join_trail toks last h]
  exact mkParamList_true (toks ++ [last])

theorem paramListParse_inv (text : List Char) :
    ((paramListParse text).hasTrail = true →
      ∃ pre last, (paramListParse text).params = pre ++ [last] ∧
        ∀ t ∈ pre, goodTok t) ∧
    ((paramListParse text).hasTrail = false →
      ∀ t ∈ (paramListParse text).params, goodTok t) := by
  rcases paramsGo_inv text none (by simp) with ⟨h1, h2⟩
  rcases htr : (paramsGo none text).2 with _ | _
  · have hgood := h2 htr
    have heq : paramListParse text = ⟨(paramsGo none text).1, false⟩ := by
      rw [paramListParse, show paramsGo none text =
        ((paramsGo none text).1, (paramsGo none text).2) from rfl, htr]
      exact mkParamList_false_good _ (fun t ht => (hgood t ht).2.1)
    rw [heq]
    exact ⟨(fun h => by cases h), (fun _ => hgood)⟩
  · have heq : paramListParse text = ⟨(paramsGo none text).1, true⟩ := by
      rw [paramListParse, show paramsGo none text =
        ((paramsGo none text).1, (paramsGo none text).2) from rfl, htr]
      exact mkParamList_true _
    rw [heq]
    exact ⟨(fun _ => h1 htr), (fun h => by cases h)⟩

theorem paramListStr_false (toks : List (List Char)) :
    paramListStr ⟨toks, false⟩ = .ok (pyJoin ' ' toks) := rfl

theorem paramListStr_trail (pre : List (List Char)) (last : List Char)
    (hne : last ≠ []) (hhead : last.head? ≠ some ':') :
    paramListStr ⟨pre ++ [last], true⟩ =
      .ok (pyJoin ' ' (pre ++ [':' :: last])) := by
  rcases last with _ | ⟨c, cs⟩
  · exact absurd rfl hne
  · have hc : c ≠ ':' := fun h => hhead (by rw [h]; rfl)
    simp only [paramListStr, if_pos rfl, List.getLast?_concat]
    rw [List.dropLast_concat]
    simp [hc]

/-! ## Upper-casing lemmas -/

theorem char_toNat_ofNat {n : Nat} (h : n < 55296) :
    (Char.ofNat n).toNat = n := by
  unfold Char.ofNat
  rw [dif_pos (Or.inl h)]
  rfl

theorem pyUpperChar_toNat {c : Char} (h : 97 ≤ c.toNat ∧ c.toNat ≤ 122) :
    (pyUpperChar c).toNat = c.toNat - 32 := by
  rw [pyUpperChar, if_pos h]
  exact char_toNat_ofNat (by omega)

theorem pyUpperChar_idem (c : Char) :
    pyUpperChar (pyUpperChar c) = pyUpperChar c := by
  by_cases h : 97 ≤ c.toNat ∧ c.toNat ≤ 122
  · have h1 := pyUpperChar_toNat h
    conv_lhs => rw [pyUpperChar]
    rw [if_neg (by omega)]
  · have h0 : pyUpperChar c = c := by rw [pyUpperChar, if_neg h]
    rw [h0]
    exact h0

theorem pyUpper_idem (s : List Char) : pyUpper (pyUpper s) = pyUpper s := by
  simp only [pyUpper, List.map_map]
  exact List.map_congr_left (fun c _ => pyUpperChar_idem c)

theorem pyUpperChar_ne_space {c : Char} (h : c ≠ ' ') :
    pyUpperChar c ≠ ' ' := by
  by_cases hr : 97 ≤ c.toNat ∧ c.toNat ≤ 122
  · have h1 := pyUpperChar_toNat hr
    intro heq
    rw [heq] at h1
    have : (' ' : Char).toNat = 32 := rfl
    omega
  · rw [pyUpperChar, if_neg hr]
    exact h

theorem space_not_mem_pyUpper {s : List Char} (h : ' ' ∉ s) :
    ' ' ∉ pyUpper s := by
  intro hm
  rcases List.mem_map.mp hm with ⟨c, hc, hcu⟩
  exact pyUpperChar_ne_space (fun hcs => h (hcs ▸ hc)) hcu

/-! ## Parse-shape (well-formedness) lemmas -/

theorem mapM_ok_mem {ε α β : Type} (f : α → Except ε β) :
    ∀ (l : List α) (ys : List β), l.mapM f = .ok ys →
    ∀ y ∈ ys, ∃ x ∈ l, f x = .ok y := by
  intro l
  induction l with
  | nil =>
    intro ys h y hy
    simp only [List.mapM_nil] at h
    injection h with h
    subst h
    simp at hy
  | cons a as ih =>
    intro ys h y hy
    rw [List.mapM_cons] at h
    rcases hfa : f a with e | b
    · rw [hfa, except_error_bind] at h
      cases h
    · rw [hfa, except_ok_bind] at h
      rcases has : as.mapM f with e2 | bs
      · rw [has, except_error_bind] at h
        cases h
      · rw [has, except_ok_bind] at h
        injection h with h
        subst h
        rcases List.mem_cons.mp hy with hyy | hyy
        · exact ⟨a, List.mem_cons_self a as, hyy ▸ hfa⟩
        · rcases ih bs has y hyy with ⟨x, hx, hfx⟩
          exact ⟨x, List.mem_cons_of_mem a hx, hfx⟩

theorem messageTagParse_ok_shape {x : List Char} {t : MessageTag}
    (h : messageTagParse x = .ok t) :
    t.name = (pyPartition '=' x).1 ∧ t.value ≠ some [] := by
  simp only [messageTagParse] at h
  by_cases hp : (pyPartition '=' x).2 = []
  · rw [if_pos hp] at h
    injection h with h
    subst h
    exact ⟨rfl, by simp⟩
  · rw [if_neg hp] at h
    rcases hu : unescape (pyPartition '=' x).2 with e | v
    · rw [hu] at h
      cases h
    · rw [hu] at h
      injection h with h
      subst h
      refine ⟨rfl, ?_⟩
      by_cases hv : v = [] <;> simp [hv]

theorem dictSet_mem {α : Type} :
    ∀ (d : List (List Char × α)) (k : List Char) (v : α) (e : List Char × α),
    e ∈ dictSet d k v → e = (k, v) ∨ e ∈ d := by
  intro d
  induction d with
  | nil =>
    intro k v e he
    simp only [dictSet, List.mem_singleton] at he
    exact Or.inl he
  | cons e0 rest ih =>
    intro k v e he
    by_cases h0 : e0.1 = k
    · rw [dictSet, if_pos h0] at he
      rcases List.mem_cons.mp he with h | h
      · exact Or.inl h
      · exact Or.inr (List.mem_cons_of_mem e0 h)
    · rw [dictSet, if_neg h0] at he
      rcases List.mem_cons.mp he with h | h
      · exact Or.inr (h ▸ List.mem_cons_self e0 rest)
      · rcases ih k v e h with h | h
        · exact Or.inl h
        · exact Or.inr (List.mem_cons_of_mem e0 h)

theorem tagListOfList_mem :
    ∀ (ts : List MessageTag) (acc : TagList) (e : List Char × MessageTag),
    e ∈ ts.foldl (fun d t => dictSet d t.name t) acc →
    e ∈ acc ∨ (e.1 = e.2.name ∧ e.2 ∈ ts) := by
  intro ts
  induction ts with
  | nil => intro acc e he; exact Or.inl he
  | cons t rest ih =>
    intro acc e he
    simp only [List.foldl_cons] at he
    rcases ih (dictSet acc t.name t) e he with h | ⟨h1, h2⟩
    · rcases dictSet_mem acc t.name t e h with h | h
      · subst h
        exact Or.inr ⟨rfl, List.mem_cons_self t rest⟩
      · exact Or.inl h
    · exact Or.inr ⟨h1, List.mem_cons_of_mem t h2⟩

theorem dictSet_keys_mem {α : Type} :
    ∀ (d : List (List Char × α)) (k : List Char) (v : α),
    k ∈ d.map Prod.fst →
    (dictSet d k v).map Prod.fst = d.map Prod.fst := by
  intro d
  induction d with
  | nil => intro k v h; simp at h
  | cons e rest ih =>
    intro k v h
    by_cases h0 : e.1 = k
    · rw [dictSet, if_pos h0]
      simp [h0]
    · rw [dictSet, if_neg h0]
      simp only [List.map_cons, List.mem_cons] at h ⊢
      rcases h with h | h
      · exact absurd h.symm h0
      · rw [ih k v h]

theorem keys_nodup_dictSet {α : Type} (d : List (List Char × α))
    (k : List Char) (v : α) (h : (d.map Prod.fst).Nodup) :
    ((dictSet d k v).map Prod.fst).Nodup := by
  by_cases hk : k ∈ d.map Prod.fst
  · rw [dictSet_keys_mem d k v hk]
    exact h
  · rw [dictSet_not_mem_keys d k v hk]
    simp only [List.map_append]
    rw [List.nodup_append]
    exact ⟨h, List.nodup_singleton k, by
      intro a ha hb
      simp only [List.map_cons, List.map_nil, List.mem_singleton] at hb
      exact hk (hb ▸ ha)⟩

theorem tagListOfList_keys_nodup :
    ∀ (ts : List MessageTag) (acc : TagList),
    (acc.map Prod.fst).Nodup →
    ((ts.foldl (fun d t => dictSet d t.name t) acc).map Prod.fst).Nodup := by
  intro ts
  induction ts with
  | nil => intro acc h; exact h
  | cons t rest ih =>
    intro acc h
    simp only [List.foldl_cons]
    exact ih (dictSet acc t.name t) (keys_nodup_dictSet acc t.name t h)

theorem tagListParse_wf {body : List Char} (hsp : ' ' ∉ body)
    {tl : TagList} (h : tagListParse body = .ok tl) :
    (∀ e ∈ tl, TagEntryWF e) ∧ (tl.map Prod.fst).Nodup := by
  rw [tagListParse] at h
  rcases hmap : ((pySplit ';' body).filter (fun t => t ≠ [])).mapM
      messageTagParse with e | ts
  · rw [hmap] at h
    cases h
  · rw [hmap] at h
    simp only [Except.map] at h
    injection h with h
    subst h
    constructor
    · intro e he
      rcases tagListOfList_mem ts [] e he with h | ⟨h1, h2⟩
      · simp at h
      · rcases mapM_ok_mem messageTagParse _ ts hmap e.2 h2 with ⟨x, hx, hfx⟩
        have hxsplit : x ∈ pySplit ';' body := (List.mem_filter.mp hx).1
        rcases messageTagParse_ok_shape hfx with ⟨hn, hv⟩
        refine ⟨h1, ?_, ?_, ?_, hv⟩
        · rw [hn]
          exact pyPartition_fst_not_mem '=' x
        · rw [hn]
          intro hm
          exact pySplit_not_mem ';' body x hxsplit
            (pyPartition_fst_sublist '=' x ';' hm)
        · rw [hn]
          intro hm
          exact hsp (pySplit_subset ';' body x hxsplit ' '
            (pyPartition_fst_sublist '=' x ' ' hm))
    · exact tagListOfList_keys_nodup ts [] (by simp)

theorem pfxParse_wf {txt : List Char} {p : Pfx} (hsp : ' ' ∉ txt)
    (h : pfxParse txt = .ok p) :
    p = ⟨[], none, none⟩ ∨
    ∃ s, s ≠ [] ∧ ' ' ∉ s ∧ '\n' ∉ s ∧ p = pfxCore s := by
  rcases txt with _ | ⟨c, cs⟩
  · simp only [pfxParse] at h
    injection h with h
    exact Or.inl h.symm
  · simp only [pfxParse] at h
    by_cases hnl : '\n' ∈ c :: cs
    · rw [if_pos hnl] at h
      cases h
    · rw [if_neg hnl] at h
      by_cases hc : c = ':' ∧ cs ≠ []
      · rw [if_pos hc] at h
        injection h with h
        exact Or.inr ⟨cs, hc.2,
          fun hm => hsp (List.mem_cons_of_mem c hm),
          fun hm => hnl (List.mem_cons_of_mem c hm), h.symm⟩
      · rw [if_neg hc] at h
        injection h with h
        exact Or.inr ⟨c :: cs, by simp, hsp, hnl, h.symm⟩

theorem pfxParse_error_iff (txt : List Char) :
    (∃ e, pfxParse txt = .error e) ↔ txt ≠ [] ∧ '\n' ∈ txt := by
  rcases txt with _ | ⟨c, cs⟩
  · constructor
    · rintro ⟨e, he⟩
      cases he
    · intro h
      exact absurd rfl h.1
  · simp only [pfxParse]
    by_cases hnl : '\n' ∈ c :: cs
    · rw [if_pos hnl]
      exact ⟨fun _ => ⟨by simp, hnl⟩, fun _ => ⟨.assertionError, rfl⟩⟩
    · rw [if_neg hnl]
      constructor
      · rintro ⟨e, he⟩
        by_cases hc : c = ':' ∧ cs ≠ []
        · rw [if_pos hc] at he
          cases he
        · rw [if_neg hc] at he
          cases he
      · rintro ⟨_, hm⟩
        exact absurd hm hnl

theorem messageParse_ok_parts {text : List Char} {m : Message}
    (h : messageParse text = .ok m) :
    ∃ tl p, tagListParse ((msgSplitTags text).1.drop 1) = .ok tl ∧
      pfxParse ((msgSplitPfx (msgSplitTags text).2).1.drop 1) = .ok p ∧
      m = ⟨tl, p,
        pyUpper (pyPartition ' '
          (msgSplitPfx (msgSplitTags text).2).2).1,
        paramListParse (pyPartition ' '
          (msgSplitPfx (msgSplitTags text).2).2).2⟩ := by
  simp only [messageParse] at h
  rcases htl : tagListParse ((msgSplitTags text).1.drop 1) with e | tl
  · rw [htl] at h
    cases h
  · rw [htl] at h
    rcases hp : pfxParse ((msgSplitPfx (msgSplitTags text).2).1.drop 1)
      with e | p
    · rw [hp] at h
      cases h
    · rw [hp] at h
      injection h with h
      exact ⟨tl, p, rfl, rfl, h.symm⟩

theorem msgSplitTags_fst_space (text : List Char) :
    ' ' ∉ (msgSplitTags text).1 := by
  rw [msgSplitTags]
  by_cases h : text.head? = some '@'
  · rw [if_pos h]
    exact pyPartition_fst_not_mem ' ' text
  · rw [if_neg h]
    simp

theorem msgSplitPfx_fst_space (text : List Char) :
    ' ' ∉ (msgSplitPfx text).1 := by
  rw [msgSplitPfx]
  by_cases h : text.head? = some ':'
  · rw [if_pos h]
    exact pyPartition_fst_not_mem ' ' text
  · rw [if_neg h]
    simp

theorem not_mem_drop_of_not_mem {c : Char} {l : List Char} (h : c ∉ l)
    (n : Nat) : c ∉ l.drop n := by
  intro hm
  exact h (List.mem_of_mem_drop hm)

theorem messageParse_stages {w2 tagsTok r1 pfxTok r2 cmdTok psTok : List Char}
    {tags : TagList} {pfx0 : Pfx} {cmd : List Char} {pl : ParamList}
    (h1 : msgSplitTags w2 = (tagsTok, r1))
    (h2 : msgSplitPfx r1 = (pfxTok, r2))
    (h3 : pyPartition ' ' r2 = (cmdTok, psTok))
    (h4 : tagListParse (tagsTok.drop 1) = .ok tags)
    (h5 : pfxParse (pfxTok.drop 1) = .ok pfx0)
    (h6 : pyUpper cmdTok = cmd)
    (h7 : paramListParse psTok = pl) :
    messageParse w2 = .ok ⟨tags, pfx0, cmd, pl⟩ := by
  simp only [messageParse, h1, h2, h3, h4, h5, h6, h7]

theorem msgSplitTags_at {x : List Char} (rest : List (List Char))
    (hx : x.head? = some '@') (hsp : ' ' ∉ x) :
    msgSplitTags (pyJoin ' ' (x :: rest)) = (x, pyJoin ' ' rest) := by
  have hxne : x ≠ [] := by
    rcases x with _ | _
    · cases hx
    · simp
  rw [msgSplitTags, if_pos (by rw [pyJoin_head rest hxne]; exact hx)]
  exact pyPartition_pyJoin rest hsp

theorem msgSplitTags_skip {w : List Char} (hw : w.head? ≠ some '@') :
    msgSplitTags w = ([], w) := by
  rw [msgSplitTags, if_neg hw]

theorem msgSplitPfx_at {x : List Char} (rest : List (List Char))
    (hx : x.head? = some ':') (hsp : ' ' ∉ x) :
    msgSplitPfx (pyJoin ' ' (x :: rest)) = (x, pyJoin ' ' rest) := by
  have hxne : x ≠ [] := by
    rcases x with _ | _
    · cases hx
    · simp
  rw [msgSplitPfx, if_pos (by rw [pyJoin_head rest hxne]; exact hx)]
  exact pyPartition_pyJoin rest hsp

theorem msgSplitPfx_skip {w : List Char} (hw : w.head? ≠ some ':') :
    msgSplitPfx w = ([], w) := by
  rw [msgSplitPfx, if_neg hw]

/-- Every message produced by `Message.parse` satisfies the shape
invariant. -/
theorem messageParse_wf {text : List Char} {m : Message}
    (h : messageParse text = .ok m) : MessageWF m := by
  rcases messageParse_ok_parts h with ⟨tl, p, htl, hp, hm⟩
  subst hm
  refine ⟨?_, ?_, ?_, ?_, ?_, ?_, ?_⟩
  · exact (tagListParse_wf
      (not_mem_drop_of_not_mem (msgSplitTags_fst_space text) 1) htl).1
  · exact (tagListParse_wf
      (not_mem_drop_of_not_mem (msgSplitTags_fst_space text) 1) htl).2
  · exact pfxParse_wf (not_mem_drop_of_not_mem
      (msgSplitPfx_fst_space (msgSplitTags text).2) 1) hp
  · exact space_not_mem_pyUpper (pyPartition_fst_not_mem ' ' _)
  · exact pyUpper_idem _
  · exact (paramListParse_inv _).1
  · exact (paramListParse_inv _).2

/-- Serializing a well-formed, round-trip-safe message succeeds and
re-parsing the result restores the message field-for-field. -/
theorem messageStr_reparse {m : Message} (hWF : MessageWF m)
    (hSC : RoundTripSafe m) :
    ∃ w2, messageStr m = .ok w2 ∧ messageParse w2 = .ok m := by
  obtain ⟨hTagWF, hNodup, hPfx, hCmdSp, hCmdUp, hTrailInv, hNoTrailInv⟩ := hWF
  obtain ⟨hS1, hS2, hS3, hS4, hS5, hS6⟩ := hSC
  have hpfxCases : (m.pfx.nick = [] ∧ m.pfx = ⟨[], none, none⟩) ∨
      (m.pfx.nick ≠ [] ∧ (pfxStr m.pfx).head? = some ':' ∧
        ' ' ∉ pfxStr m.pfx ∧
        pfxParse ((pfxStr m.pfx).drop 1) = .ok m.pfx) := by
    rcases hPfx with h | ⟨s, hsne, hssp, hsnl, hs⟩
    · exact Or.inl ⟨by rw [h], h⟩
    · rcases s with _ | ⟨c, cs⟩
      · exact absurd rfl hsne
      · have hmask : (pfxCore (c :: cs)).mask = c :: cs := pfxCore_mask c cs
        refine Or.inr ⟨?_, rfl, ?_, ?_⟩
        · rw [hs, pfxCore_nick_eq]
          simp
        · intro hm
          rcases List.mem_cons.mp hm with h | h
          · cases h
          · rw [hs, hmask] at h
            exact hssp h
        · show pfxParse ((pfxStr m.pfx).drop 1) = .ok m.pfx
          have hd : (pfxStr m.pfx).drop 1 = m.pfx.mask := rfl
          rw [hd, hs]
          exact pfxParse_roundtrip c cs hsnl (by rw [← hs]; exact hS6)
  have hplCases : (m.parameters.params = [] ∧ m.parameters = ⟨[], false⟩) ∨
      (m.parameters.params ≠ [] ∧ ∃ ps,
        paramListStr m.parameters = .ok ps ∧
        paramListParse ps = m.parameters) := by
    by_cases hpe : m.parameters.params = []
    · left
      refine ⟨hpe, ?_⟩
      rcases htr : m.parameters.hasTrail with _ | _
      · rw [show m.parameters =
          ⟨m.parameters.params, m.parameters.hasTrail⟩ from rfl, hpe, htr]
      · rcases hTrailInv htr with ⟨pre, last, heq, _⟩
        rw [hpe] at heq
        simp at heq
    · right
      refine ⟨hpe, ?_⟩
      rcases htr : m.parameters.hasTrail with _ | _
      · have he : m.parameters = ⟨m.parameters.params, false⟩ := by
          rw [← htr]
        refine ⟨pyJoin ' ' m.parameters.params, ?_, ?_⟩
        · conv_lhs => rw [he]
          exact paramListStr_false _
        · rw [paramListParse_join_good _ (hNoTrailInv htr)]
          exact he.symm
      · rcases hTrailInv htr with ⟨pre, last, heq, hpre⟩
        have hlast : m.parameters.params.getLast?.getD [] = last := by
          rw [heq]
          simp
        rcases hS5 htr with ⟨h5a, h5b⟩
        rw [hlast] at h5a h5b
        have he : m.parameters = ⟨pre ++ [last], true⟩ := by
          rw [← heq, ← htr]
        refine ⟨pyJoin ' ' (pre ++ [':' :: last]), ?_, ?_⟩
        · conv_lhs => rw [he]
          exact paramListStr_trail pre last h5a h5b
        · rw [paramListParse_join_trail pre last hpre]
          exact he.symm
  have htagCases : (m.tags = []) ∨ (m.tags ≠ [] ∧
      (tagListStr m.tags).head? = some '@' ∧ ' ' ∉ tagListStr m.tags ∧
      tagListParse ((tagListStr m.tags).drop 1) = .ok m.tags) := by
    by_cases hte : m.tags = []
    · exact Or.inl hte
    · exact Or.inr ⟨hte, rfl, space_not_mem_tagListStr _ hTagWF,
        tagListParse_tagListStr _ hTagWF hNodup hS1 hte⟩
  rcases hplCases with ⟨hpe, hpl⟩ | ⟨hpe, ps, hpstr, hpparse⟩
  · -- no parameters
    have h7 : paramListParse [] = m.parameters := by
      rw [hpl]
      rfl
    rcases htagCases with hte | ⟨hte, htbh, htbs, htbp⟩
    · rcases hpfxCases with ⟨hn, hpem⟩ | ⟨hn, hpbh, hpbs, hpbp⟩
      · by_cases hc : m.command = []
        · -- everything empty
          refine ⟨pyJoin ' ' [], ?_, ?_⟩
          · simp [messageStr, hte, hn, hc, hpe]
          · have hm : m = ⟨[], ⟨[], none, none⟩, [], ⟨[], false⟩⟩ := by
              rw [show m = ⟨m.tags, m.pfx, m.command, m.parameters⟩ from rfl,
                hte, hpem, hc, hpl]
            rw [hm]
            rfl
        · -- command only
          refine ⟨pyJoin ' ' [m.command], ?_, ?_⟩
          · simp [messageStr, hte, hn, hc, hpe]
          · have h1 : msgSplitTags (pyJoin ' ' [m.command]) =
                ([], pyJoin ' ' [m.command]) :=
              msgSplitTags_skip (by
                rw [pyJoin_head [] hc]
                intro hh
                exact hS3 ⟨hte, hn⟩ hh)
            have h2 : msgSplitPfx (pyJoin ' ' [m.command]) =
                ([], pyJoin ' ' [m.command]) :=
              msgSplitPfx_skip (by
                rw [pyJoin_head [] hc]
                intro hh
                exact hS4 hn hh)
            have h3 : pyPartition ' ' (pyJoin ' ' [m.command]) =
                (m.command, []) := pyPartition_eq_of_not_mem hCmdSp
            exact messageParse_stages h1 h2 h3 (by rw [hte]; rfl)
              (by rw [hpem]; rfl) hCmdUp h7
      · by_cases hc : m.command = []
        · -- prefix only
          refine ⟨pyJoin ' ' [pfxStr m.pfx], ?_, ?_⟩
          · simp [messageStr, hte, hn, hc, hpe]
          · have h1 : msgSplitTags (pyJoin ' ' [pfxStr m.pfx]) =
                ([], pyJoin ' ' [pfxStr m.pfx]) :=
              msgSplitTags_skip (by
                rw [pyJoin_head [] (by intro hnil; rw [hnil] at hpbh; cases hpbh)]
                rw [hpbh]
                simp)
            have h2 : msgSplitPfx (pyJoin ' ' [pfxStr m.pfx]) =
                (pfxStr m.pfx, pyJoin ' ' []) := msgSplitPfx_at [] hpbh hpbs
            have h3 : pyPartition ' ' (pyJoin ' ' ([] : List (List Char))) =
                ([], []) := rfl
            exact messageParse_stages h1 h2 h3 (by rw [hte]; rfl) hpbp
              (by simp [hc, pyUpper]) h7
        · -- prefix and command
          refine ⟨pyJoin ' ' [pfxStr m.pfx, m.command], ?_, ?_⟩
          · simp [messageStr, hte, hn, hc, hpe]
          · have h1 : msgSplitTags (pyJoin ' ' [pfxStr m.pfx, m.command]) =
                ([], pyJoin ' ' [pfxStr m.pfx, m.command]) :=
              msgSplitTags_skip (by
                rw [pyJoin_head [m.command] (by intro hnil; rw [hnil] at hpbh; cases hpbh)]
                rw [hpbh]
                simp)
            have h2 : msgSplitPfx (pyJoin ' ' [pfxStr m.pfx, m.command]) =
                (pfxStr m.pfx, pyJoin ' ' [m.command]) :=
              msgSplitPfx_at [m.command] hpbh hpbs
            have h3 : pyPartition ' ' (pyJoin ' ' [m.command]) =
                (m.command, []) := pyPartition_eq_of_not_mem hCmdSp
            exact messageParse_stages h1 h2 h3 (by rw [hte]; rfl) hpbp
              hCmdUp h7
    · rcases hpfxCases with ⟨hn, hpem⟩ | ⟨hn, hpbh, hpbs, hpbp⟩
      · by_cases hc : m.command = []
        · -- tags only
          refine ⟨pyJoin ' ' [tagListStr m.tags], ?_, ?_⟩
          · simp [messageStr, hte, hn, hc, hpe]
          · have h1 : msgSplitTags (pyJoin ' ' [tagListStr m.tags]) =
                (tagListStr m.tags, pyJoin ' ' []) :=
              msgSplitTags_at [] htbh htbs
            have h2 : msgSplitPfx (pyJoin ' ' ([] : List (List Char))) =
                ([], []) := rfl
            have h3 : pyPartition ' ' ([] : List Char) = ([], []) := rfl
            exact messageParse_stages h1 h2 h3 htbp (by rw [hpem]; rfl)
              (by simp [hc, pyUpper]) h7
        · -- tags and command
          refine ⟨pyJoin ' ' [tagListStr m.tags, m.command], ?_, ?_⟩
          · simp [messageStr, hte, hn, hc, hpe]
          · have h1 : msgSplitTags
                (pyJoin ' ' [tagListStr m.tags, m.command]) =
                (tagListStr m.tags, pyJoin ' ' [m.command]) :=
              msgSplitTags_at [m.command] htbh htbs
            have h2 : msgSplitPfx (pyJoin ' ' [m.command]) =
                ([], pyJoin ' ' [m.command]) :=
              msgSplitPfx_skip (by
                rw [pyJoin_head [] hc]
                intro hh
                exact hS4 hn hh)
            have h3 : pyPartition ' ' (pyJoin ' ' [m.command]) =
                (m.command, []) := pyPartition_eq_of_not_mem hCmdSp
            exact messageParse_stages h1 h2 h3 htbp (by rw [hpem]; rfl)
              hCmdUp h7
      · by_cases hc : m.command = []
        · -- tags and prefix
          refine ⟨pyJoin ' ' [tagListStr m.tags, pfxStr m.pfx], ?_, ?_⟩
          · simp [messageStr, hte, hn, hc, hpe]
          · have h1 : msgSplitTags
                (pyJoin ' ' [tagListStr m.tags, pfxStr m.pfx]) =
                (tagListStr m.tags, pyJoin ' ' [pfxStr m.pfx]) :=
              msgSplitTags_at [pfxStr m.pfx] htbh htbs
            have h2 : msgSplitPfx (pyJoin ' ' [pfxStr m.pfx]) =
                (pfxStr m.pfx, pyJoin ' ' []) := msgSplitPfx_at [] hpbh hpbs
            have h3 : pyPartition ' ' (pyJoin ' ' ([] : List (List Char))) =
                ([], []) := rfl
            exact messageParse_stages h1 h2 h3 htbp hpbp (by simp [hc, pyUpper]) h7
        · -- tags, prefix and command
          refine ⟨pyJoin ' '
            [tagListStr m.tags, pfxStr m.pfx, m.command], ?_, ?_⟩
          · simp [messageStr, hte, hn, hc, hpe]
          · have h1 : msgSplitTags (pyJoin ' '
                [tagListStr m.tags, pfxStr m.pfx, m.command]) =
                (tagListStr m.tags,
                  pyJoin ' ' [pfxStr m.pfx, m.command]) :=
              msgSplitTags_at [pfxStr m.pfx, m.command] htbh htbs
            have h2 : msgSplitPfx (pyJoin ' ' [pfxStr m.pfx, m.command]) =
                (pfxStr m.pfx, pyJoin ' ' [m.command]) :=
              msgSplitPfx_at [m.command] hpbh hpbs
            have h3 : pyPartition ' ' (pyJoin ' ' [m.command]) =
                (m.command, []) := pyPartition_eq_of_not_mem hCmdSp
            exact messageParse_stages h1 h2 h3 htbp hpbp hCmdUp h7
  · -- parameters present: the command is nonempty
    have hc : m.command ≠ [] := hS2 hpe
    have h7 : paramListParse ps = m.parameters := hpparse
    rcases htagCases with hte | ⟨hte, htbh, htbs, htbp⟩
    · rcases hpfxCases with ⟨hn, hpem⟩ | ⟨hn, hpbh, hpbs, hpbp⟩
      · -- command and params
        refine ⟨pyJoin ' ' [m.command, ps], ?_, ?_⟩
        · simp [messageStr, hte, hn, hpe, hpstr, hc, Except.map]
        · have h1 : msgSplitTags (pyJoin ' ' [m.command, ps]) =
              ([], pyJoin ' ' [m.command, ps]) :=
            msgSplitTags_skip (by
              rw [pyJoin_head [ps] hc]
              intro hh
              exact hS3 ⟨hte, hn⟩ hh)
          have h2 : msgSplitPfx (pyJoin ' ' [m.command, ps]) =
              ([], pyJoin ' ' [m.command, ps]) :=
            msgSplitPfx_skip (by
              rw [pyJoin_head [ps] hc]
              intro hh
              exact hS4 hn hh)
          have h3 : pyPartition ' ' (pyJoin ' ' [m.command, ps]) =
              (m.command, ps) := pyPartition_pyJoin [ps] hCmdSp
          exact messageParse_stages h1 h2 h3 (by rw [hte]; rfl)
            (by rw [hpem]; rfl) hCmdUp h7
      · -- prefix, command and params
        refine ⟨pyJoin ' ' [pfxStr m.pfx, m.command, ps], ?_, ?_⟩
        · simp [messageStr, hte, hn, hpe, hpstr, hc, Except.map]
        · have h1 : msgSplitTags
              (pyJoin ' ' [pfxStr m.pfx, m.command, ps]) =
              ([], pyJoin ' ' [pfxStr m.pfx, m.command, ps]) :=
            msgSplitTags_skip (by
              rw [pyJoin_head [m.command, ps] (by intro hnil; rw [hnil] at hpbh; cases hpbh)]
              rw [hpbh]
              simp)
          have h2 : msgSplitPfx (pyJoin ' ' [pfxStr m.pfx, m.command, ps]) =
              (pfxStr m.pfx, pyJoin ' ' [m.command, ps]) :=
            msgSplitPfx_at [m.command, ps] hpbh hpbs
          have h3 : pyPartition ' ' (pyJoin ' ' [m.command, ps]) =
              (m.command, ps) := pyPartition_pyJoin [ps] hCmdSp
          exact messageParse_stages h1 h2 h3 (by rw [hte]; rfl) hpbp
            hCmdUp h7
    · rcases hpfxCases with ⟨hn, hpem⟩ | ⟨hn, hpbh, hpbs, hpbp⟩
      · -- tags, command and params
        refine ⟨pyJoin ' ' [tagListStr m.tags, m.command, ps], ?_, ?_⟩
        · simp [messageStr, hte, hn, hpe, hpstr, hc, Except.map]
        · have h1 : msgSplitTags
              (pyJoin ' ' [tagListStr m.tags, m.command, ps]) =
              (tagListStr m.tags, pyJoin ' ' [m.command, ps]) :=
            msgSplitTags_at [m.command, ps] htbh htbs
          have h2 : msgSplitPfx (pyJoin ' ' [m.command, ps]) =
              ([], pyJoin ' ' [m.command, ps]) :=
            msgSplitPfx_skip (by
              rw [pyJoin_head [ps] hc]
              intro hh
              exact hS4 hn hh)
          have h3 : pyPartition ' ' (pyJoin ' ' [m.command, ps]) =
              (m.command, ps) := pyPartition_pyJoin [ps] hCmdSp
          exact messageParse_stages h1 h2 h3 htbp (by rw [hpem]; rfl)
            hCmdUp h7
      · -- tags, prefix, command and params
        refine ⟨pyJoin ' '
          [tagListStr m.tags, pfxStr m.pfx, m.command, ps], ?_, ?_⟩
        · simp [messageStr, hte, hn, hpe, hpstr, hc, Except.map]
        · have h1 : msgSplitTags (pyJoin ' '
              [tagListStr m.tags, pfxStr m.pfx, m.command, ps]) =
              (tagListStr m.tags,
                pyJoin ' ' [pfxStr m.pfx, m.command, ps]) :=
            msgSplitTags_at [pfxStr m.pfx, m.command, ps] htbh htbs
          have h2 : msgSplitPfx (pyJoin ' ' [pfxStr m.pfx, m.command, ps]) =
              (pfxStr m.pfx, pyJoin ' ' [m.command, ps]) :=
            msgSplitPfx_at [m.command, ps] hpbh hpbs
          have h3 : pyPartition ' ' (pyJoin ' ' [m.command, ps]) =
              (m.command, ps) := pyPartition_pyJoin [ps] hCmdSp
          exact messageParse_stages h1 h2 h3 htbp hpbp hCmdUp h7


/-! ## Claim C1 -/

theorem except_map_error_iff {ε α β : Type} (f : α → β) (x : Except ε α) :
    (∃ e, Except.map f x = .error e) ↔ ∃ e, x = .error e := by
  rcases x with e | a <;> simp [Except.map]

/-- C1 counterexample: seven concrete wire texts on which
`parse(serialize(parse(wire)))` does not restore `parse(wire)`
(`reparses` evaluates the claim at one wire; `isOk` certifies that the
wire does parse, so the claim's premise holds).  In order: a trailing
parameter that itself starts with `:` loses its trail sentinel; an empty
trailing parameter makes `__str__` raise `IndexError`; parameters with an
empty command promote the first parameter to the command; an empty-named
valueless tag vanishes; a command starting with `@` after an empty tag
block is re-parsed as a tag block; a command starting with `:` after an
empty prefix is re-parsed as a prefix; a nick starting with `:` loses a
colon to the regex's optional `:?`. -/
theorem c1_counterexample :
    (reparses ['C', 'M', 'D', ' ', ':', ':', 'x'] = false ∧
      (messageParse ['C', 'M', 'D', ' ', ':', ':', 'x']).isOk = true) ∧
    (reparses ['C', 'M', 'D', ' ', ':'] = false ∧
      (messageParse ['C', 'M', 'D', ' ', ':']).isOk = true) ∧
    (reparses [' ', 'x'] = false ∧
      (messageParse [' ', 'x']).isOk = true) ∧
    (reparses ['@', '=', ' ', 'x'] = false ∧
      (messageParse ['@', '=', ' ', 'x']).isOk = true) ∧
    (reparses ['@', ' ', '@', 'x'] = false ∧
      (messageParse ['@', ' ', '@', 'x']).isOk = true) ∧
    (reparses [':', ' ', ':', 'x'] = false ∧
      (messageParse [':', ' ', ':', 'x']).isOk = true) ∧
    (reparses [':', ':', ':', 'a', ' ', 'b'] = false ∧
      (messageParse [':', ':', ':', 'a', ' ', 'b']).isOk = true) := by
  decide

/-- C1 (amended): for every Message `m = parse(wire)` satisfying the
round-trip side conditions (`RoundTripSafe`, each forced by one of the
counterexample wires), `serialize(m)` succeeds and `parse(serialize(m))`
equals `m` field-for-field: same tags (names, values, order), same
prefix, same command, and same parameter sequence including the
trailing-parameter marking, even when `serialize(m)` is not byte-identical
to the original wire text. -/
theorem c1_parse_serialize_roundtrip (wire : List Char) (m : Message)
    (hparse : messageParse wire = .ok m) (hsafe : RoundTripSafe m) :
    ∃ w2, messageStr m = .ok w2 ∧ messageParse w2 = .ok m :=
  messageStr_reparse (messageParse_wf hparse) hsafe

/-- Witness for C1 on a full message with tags, prefix, command and a
trailing parameter. -/
theorem c1_parse_serialize_roundtrip_witness :
    ∃ w2, messageStr
      ⟨[(['a'], ⟨['a'], some ['b']⟩)],
        ⟨['n'], some ['u'], some ['h']⟩, ['P', 'R', 'I', 'V'],
        ⟨[['#', 'c'], ['h', 'i', ' ', 'x']], true⟩⟩ = .ok w2 ∧
    messageParse w2 = .ok
      ⟨[(['a'], ⟨['a'], some ['b']⟩)],
        ⟨['n'], some ['u'], some ['h']⟩, ['P', 'R', 'I', 'V'],
        ⟨[['#', 'c'], ['h', 'i', ' ', 'x']], true⟩⟩ :=
  c1_parse_serialize_roundtrip
    ['@', 'a', '=', 'b', ' ', ':', 'n', '!', 'u', '@', 'h', ' ', 'P', 'R',
      'I', 'V', ' ', '#', 'c', ' ', ':', 'h', 'i', ' ', 'x'] _
    (by rfl) (by unfold RoundTripSafe; decide)

/-! ## Claim C4 -/

/-- C4 counterexample: the original claim says no input shape other than
a malformed tag escape causes an error, but the wire `":a\nb"` — which
has no tag block at all, hence no tag tokens that could hold a malformed
escape — makes `Message.parse` raise `AssertionError`: the prefix text
`"a\nb"` contains a newline, `PREFIX_RE.fullmatch` cannot match it
(`.` never matches `'\n'`), and `assert match` fires in `Prefix.parse`. -/
theorem c4_counterexample :
    messageParse [':', 'a', '\n', 'b'] = .error .assertionError ∧
    (pySplit ';' ((msgSplitTags [':', 'a', '\n', 'b']).1.drop 1)).filter
      (fun t => t ≠ []) = [] :=
  ⟨rfl, rfl⟩

/-- C4 (amended): `Message.parse` raises exactly when some (nonempty) tag
token of the tag block fails to parse — a tag token fails only because
unescaping its value part fails, a malformed escape sequence — or when
the prefix text after the leading `:` is nonempty and contains a newline,
so that `PREFIX_RE.fullmatch` fails (no atom of the pattern matches
`'\n'`) and the `assert match` in `Prefix.parse` raises `AssertionError`
(the tag error preempts the prefix error, as `TagList.parse` runs first);
every other input shape parses without raising, and a fully missing
message yields the empty defaults. -/
theorem c4_parse_errors_iff :
    (∀ text, (∃ e, messageParse text = .error e) ↔
      ((∃ tok ∈ (pySplit ';' ((msgSplitTags text).1.drop 1)).filter
          (fun t => t ≠ []), ∃ e, messageTagParse tok = .error e) ∨
        ((msgSplitPfx (msgSplitTags text).2).1.drop 1 ≠ [] ∧
          '\n' ∈ (msgSplitPfx (msgSplitTags text).2).1.drop 1))) ∧
    (∀ tok e, messageTagParse tok = .error e →
      ∃ e2, unescape ((pyPartition '=' tok).2) = .error e2) ∧
    messageParse [] = .ok ⟨[], ⟨[], none, none⟩, [], ⟨[], false⟩⟩ := by
  refine ⟨?_, ?_, rfl⟩
  · intro text
    have htag : (∃ e, tagListParse ((msgSplitTags text).1.drop 1) =
        .error e) ↔
        ∃ tok ∈ (pySplit ';' ((msgSplitTags text).1.drop 1)).filter
          (fun t => t ≠ []), ∃ e, messageTagParse tok = .error e := by
      have hstep : (∃ e, tagListParse ((msgSplitTags text).1.drop 1) =
          .error e) ↔
          ∃ e, ((pySplit ';' ((msgSplitTags text).1.drop 1)).filter
            (fun t => t ≠ [])).mapM messageTagParse = .error e := by
        simp only [tagListParse]
        exact except_map_error_iff _ _
      rw [hstep]
      exact mapM_error_iff messageTagParse _
    rcases htl : tagListParse ((msgSplitTags text).1.drop 1) with e | tl
    · constructor
      · intro _
        exact Or.inl (htag.mp ⟨e, htl⟩)
      · intro _
        refine ⟨e, ?_⟩
        simp only [messageParse, htl]
    · constructor
      · rintro ⟨e, he⟩
        simp only [messageParse, htl] at he
        rcases hp : pfxParse ((msgSplitPfx (msgSplitTags text).2).1.drop 1)
          with e2 | p
        · exact Or.inr ((pfxParse_error_iff _).mp ⟨e2, hp⟩)
        · rw [hp] at he
          cases he
      · rintro (⟨tok, hmem, e, htok⟩ | ⟨hne, hnl⟩)
        · rcases htag.mpr ⟨tok, hmem, e, htok⟩ with ⟨e2, he2⟩
          rw [htl] at he2
          cases he2
        · rcases (pfxParse_error_iff _).mpr ⟨hne, hnl⟩ with ⟨e2, he2⟩
          refine ⟨e2, ?_⟩
          simp only [messageParse, htl, he2]
  · intro tok e h
    simp only [messageTagParse] at h
    by_cases hp : (pyPartition '=' tok).2 = []
    · rw [if_pos hp] at h
      cases h
    · rw [if_neg hp] at h
      rcases hu : unescape (pyPartition '=' tok).2 with e2 | v
      · exact ⟨e2, rfl⟩
      · rw [hu] at h
        simp [Except.map] at h

/-- Witness for C4 at concrete inputs: a wire whose only flaw is the
malformed escape `\x` in a tag value fails to parse; a wire with a
newline in its prefix fails to parse; the failing tag token's value
indeed fails to unescape. -/
theorem c4_parse_errors_iff_witness :
    (∃ e, messageParse ['@', 'a', '=', '\\', 'x', ' ', 'b'] = .error e) ∧
    (∃ e, messageParse [':', 'a', '\n', 'b'] = .error e) ∧
    ∃ e2, unescape ((pyPartition '=' ['a', '=', '\\', 'x']).2) =
      .error e2 :=
  ⟨(c4_parse_errors_iff.1 _).mpr
      (Or.inl ⟨['a', '=', '\\', 'x'], by decide, .keyError, by rfl⟩),
    (c4_parse_errors_iff.1 _).mpr (Or.inr ⟨by decide, by decide⟩),
    c4_parse_errors_iff.2.1 ['a', '=', '\\', 'x'] .keyError (by rfl)⟩

/-- Witness for C7: an ACK for a tracked `sasl` capability. -/
theorem c7_cap_reply_witness :
    ∃ caps2 sent,
      capReplyStep [['*'], ['A', 'C', 'K'], ['s', 'a', 's', 'l']]
        [(['s', 'a', 's', 'l'], (⟨['s', 'a', 's', 'l'], none⟩, none))] =
        some (caps2, sent) ∧
      (∀ cap ∈ capMsgList [['*'], ['A', 'C', 'K'], ['s', 'a', 's', 'l']],
        ∃ c, dictGet caps2 cap.name =
          some (c, some (decide (['A', 'C', 'K'] = ['A', 'C', 'K'])))) ∧
      (∀ k, (∀ cap ∈ capMsgList [['*'], ['A', 'C', 'K'], ['s', 'a', 's', 'l']],
        cap.name ≠ k) → dictGet caps2 k =
          dictGet [(['s', 'a', 's', 'l'], (⟨['s', 'a', 's', 'l'], none⟩,
            none))] k) ∧
      (sent = [['C', 'A', 'P', ' ', 'E', 'N', 'D']] ↔
        ∀ e ∈ caps2, (e.2.2).isSome) ∧
      (sent = [] ↔ ¬ ∀ e ∈ caps2, (e.2.2).isSome) :=
  c7_cap_reply [['*'], ['A', 'C', 'K'], ['s', 'a', 's', 'l']]
    [(['s', 'a', 's', 'l'], (⟨['s', 'a', 's', 'l'], none⟩, none))]
    ['A', 'C', 'K'] (by rfl) (Or.inl rfl) (by decide)

end AsyncIrc
